import Mathlib

/-!
Verification development for the blindelephant-ng version-fingerprinting tool.

The Python program builds a fingerprint `Database` from a corpus of
per-version archives, and probes a remote target with two algorithms:
`check` (greedy set-cover based detection) and `guess` (adaptive
bisection-style version narrowing).

Modelling conventions:
* Python `dict`s are insertion-ordered association lists `List (k × v)`
  with unique keys, updated by `upsert` (update in place, else append).
* Python `set`s of version identifiers (and `frozenset` keys of the
  `nodes` map) are `Finset String`; sets of paths that the code iterates
  over are `List String` kept duplicate-free by `insertNew`, which fixes
  one admissible iteration order (Python set iteration order is
  unspecified).
* The HTTP fetcher collaborator is a pure function
  `target : String → Nat × String` from a path to a status code and body;
  `urljoin` and the session are absorbed into that collaborator.
* Generators (`Database.indicators`, the loops of `guess` and
  `minimal_cover`) are modelled with explicit fuel; the fuel bounds are
  chosen so that the natural stopping condition of each Python loop is
  always reached first (each round of `indicators` removes at least one
  of the at most `nodes.length` keys, each iteration of `minimal_cover`
  removes at least one of the `card` remaining versions, and each
  iteration of `guess` marks at least one of the finitely many paths
  queried, which the termination theorem below makes precise).
-/

/-- First-match association-list lookup, the model of Python `d[k]` /
`k in d`. -/
def lookupA {α β : Type} [DecidableEq α] : List (α × β) → α → Option β
  | [], _ => none
  | (a, b) :: t, k => if a = k then some b else lookupA t k

/-- Update the value at key `k` in place (preserving dict insertion order),
appending a fresh entry when the key is absent: the model of
`if k not in d: d[k] = init` followed by a mutation of `d[k]`. -/
def upsert {α β : Type} [DecidableEq α] (k : α) (f : Option β → β) : List (α × β) → List (α × β)
  | [] => [(k, f none)]
  | (a, b) :: t => if a = k then (a, f (some b)) :: t else (a, b) :: upsert k f t

/-- Add an element to a duplicate-free list, the model of `set.add` under
insertion-order iteration. -/
def insertNew {α : Type} [DecidableEq α] (x : α) (l : List α) : List α :=
  if x ∈ l then l else l ++ [x]

/-- Keys of an association list, in insertion order (`d.keys()`). -/
def keysOf {α β : Type} (m : List (α × β)) : List α := m.map Prod.fst

/-- Union of a list of version sets (`reduce(lambda k, v: k.union(v), ...)`
with an empty starting set). -/
def unionL (l : List (Finset String)) : Finset String := l.foldl (· ∪ ·) ∅

/-- Modelled from the spec: `content_hash` streams the file path bytes, a
single NUL separator byte, and the file content bytes into the external
`xxhash.xxh128` digest, producing a 128-bit integer.  The external
compression function is not part of this repository; it is modelled by a
streaming polynomial accumulator reduced mod `2 ^ 128` over the same byte
sequence (path bytes, then `0`, then content bytes), which preserves the
order-sensitivity and the 128-bit range stated in the spec. -/
def content_hash (path content : String) : Nat :=
  ((path.data.map Char.toNat) ++ [0] ++ (content.data.map Char.toNat)).foldl
    (fun h b => (h * 257 + b) % (2 ^ 128)) 7

/-- Strip `skip` leading path segments:
`tarinfo.path.split('/', maxsplit=skip)[-1]` when `skip > 0`, else the raw
path.  When the path has fewer than `skip` slashes, Python's `[-1]` yields
the final segment. -/
def stripPath (skip : Nat) (p : String) : String :=
  if skip > 0 then
    String.intercalate "/" ((p.splitOn "/").drop (min skip ((p.splitOn "/").length - 1)))
  else p

/-- The fingerprint database: `fingerprints` maps a 128-bit fingerprint to
the set of versions shipping a file with that exact (path, content) hash;
`nodes` maps a presence pattern (the exact set of versions containing a
path) to the set of paths with that pattern. -/
structure Database where
  fingerprints : List (Nat × Finset String)
  nodes : List (Finset String × List String)
deriving DecidableEq

/-- Derived version universe: the union of all `nodes` keys
(`reduce(lambda k, v: k.union(v), self.nodes.keys())`, empty when `nodes`
is empty). -/
def Database.versions (db : Database) : Finset String := unionL (keysOf db.nodes)

/-- Record one more version under a fingerprint or path key
(`d.setdefault(k, set()).add(version)`). -/
def addVersion (v : String) : Option (Finset String) → Finset String :=
  fun o => insert v (o.getD ∅)

/-- Ingest the regular files of one archive: for each file record the
version under its content fingerprint and under its stripped path. -/
def ingestFiles (v : String) (skip : Nat) :
    List (String × String) → List (Nat × Finset String) → List (String × Finset String) →
      List (Nat × Finset String) × List (String × Finset String)
  | [], fps, paths => (fps, paths)
  | (p, c) :: rest, fps, paths =>
    ingestFiles v skip rest
      (upsert (content_hash (stripPath skip p) c) (addVersion v) fps)
      (upsert (stripPath skip p) (addVersion v) paths)

/-- Fold one group's paths back into the path → version-set map
(`for p in ps: paths.setdefault(p, set()).update(vs)`). -/
def addPaths (vs : Finset String) : List String → List (String × Finset String) → List (String × Finset String)
  | [], acc => acc
  | p :: rest, acc => addPaths vs rest (upsert p (fun o => o.getD ∅ ∪ vs) acc)

/-- Expand the existing `nodes` groups back into a per-path version-set
map, so that an incremental `generate` call is equivalent to one full
rebuild. -/
def expandAux : List (Finset String × List String) → List (String × Finset String) → List (String × Finset String)
  | [], acc => acc
  | e :: rest, acc => expandAux rest (addPaths e.1 e.2 acc)

/-- Expansion of `nodes` starting from an empty path map. -/
def expandPaths (nodes : List (Finset String × List String)) : List (String × Finset String) :=
  expandAux nodes []

/-- Regroup the accumulated path → version-set map by presence pattern
(`nodes.setdefault(frozenset(v), set()).add(k)`). -/
def regroupAux : List (String × Finset String) → List (Finset String × List String) → List (Finset String × List String)
  | [], acc => acc
  | (p, vs) :: rest, acc => regroupAux rest (upsert vs (fun o => insertNew p (o.getD [])) acc)

/-- Regrouping from scratch, as `generate` does after processing all new
archives. -/
def regroup (paths : List (String × Finset String)) : List (Finset String × List String) :=
  regroupAux paths []

/-- The archive-processing loop of `Database.generate`: versions already
`known` (per the *stale* `self.versions`, which only changes when `nodes`
is reassigned after the whole loop) are skipped entirely. -/
def genFold (known : Finset String) (skip : Nat) :
    List (String × List (String × String)) →
      List (Nat × Finset String) × List (String × Finset String) →
        List (Nat × Finset String) × List (String × Finset String)
  | [], acc => acc
  | a :: rest, acc =>
    genFold known skip rest (if a.1 ∈ known then acc else ingestFiles a.1 skip a.2 acc.1 acc.2)

/-- `Database.generate`: ingest a corpus of archives, each given as a
version identifier (the archive basename, extension stripped) together
with its list of regular files as (path, content) pairs; then rebuild
`nodes` from scratch from the full accumulated path → version-set map. -/
def Database.generate (db : Database) (corpus : List (String × List (String × String)))
    (skip : Nat) : Database :=
  ⟨(genFold db.versions skip corpus (db.fingerprints, expandPaths db.nodes)).1,
   regroup (genFold db.versions skip corpus (db.fingerprints, expandPaths db.nodes)).2⟩

/-- One archive's files where reading an entry can fail
(`Except.error ()` models an unreadable or corrupt tar entry raising an
exception). Files are processed until the first failing entry; the
fingerprint and path maps built so far are kept, since the Python code
mutates `self.fingerprints` in place while iterating the tar. -/
def ingestFilesE (v : String) (skip : Nat) :
    List (Except Unit (String × String)) → List (Nat × Finset String) → List (String × Finset String) →
      (List (Nat × Finset String) × List (String × Finset String)) × Bool
  | [], fps, paths => ((fps, paths), true)
  | Except.error _ :: _, fps, paths => ((fps, paths), false)
  | Except.ok (p, c) :: rest, fps, paths =>
    ingestFilesE v skip rest
      (upsert (content_hash (stripPath skip p) c) (addVersion v) fps)
      (upsert (stripPath skip p) (addVersion v) paths)

/-- Archive loop of `generate` in the presence of failing entries: an
exception aborts the whole call, propagating to the caller (`Bool` result
`false`). On failure the partially filled fingerprint map is already
visible in the database (the local `fingerprints` aliases
`self.fingerprints`), while `self.nodes` keeps its pre-call value because
the rebuild at the end of `generate` never runs. -/
def genFoldE (db : Database) (skip : Nat) :
    List (String × List (Except Unit (String × String))) →
      List (Nat × Finset String) × List (String × Finset String) → Database × Bool
  | [], acc => (⟨acc.1, regroup acc.2⟩, true)
  | a :: rest, acc =>
    if a.1 ∈ db.versions then genFoldE db skip rest acc
    else
      match ingestFilesE a.1 skip a.2 acc.1 acc.2 with
      | (acc2, true) => genFoldE db skip rest acc2
      | (acc2, false) => (⟨acc2.1, db.nodes⟩, false)

/-- `Database.generate` over a corpus whose archive entries may fail. -/
def Database.generateE (db : Database) (corpus : List (String × List (Except Unit (String × String))))
    (skip : Nat) : Database × Bool :=
  genFoldE db skip corpus (db.fingerprints, expandPaths db.nodes)

/-- Greedy gain of a candidate version set against the still-uncovered
versions (`len(s.intersection(remaining))`). -/
def gain (remaining s : Finset String) : Nat := (s ∩ remaining).card

/-- Leftmost maximal-gain set:
`next(iter(sorted(sets, key=gain, reverse=True)))` with Python's stable
sort, determinized to the first maximal element in iteration order. -/
def pickBest (remaining : Finset String) : List (Finset String) → Finset String
  | [] => ∅
  | h :: t => t.foldl (fun best s => if gain remaining best < gain remaining s then s else best) h

/-- The `while remaining:` loop of `minimal_cover`, fueled by the number of
initially uncovered versions (each iteration removes at least one). -/
def coverLoop (sets : List (Finset String)) : Nat → Finset String → List (Finset String) → List (Finset String)
  | 0, _, cover => cover
  | n + 1, remaining, cover =>
    if remaining = ∅ then cover
    else coverLoop sets n (remaining \ pickBest remaining sets)
      (cover ++ [pickBest remaining sets])

/-- `minimal_cover(sets)`: `None` on an empty collection, else a greedy
approximate minimum set cover of the union of `sets`, built in selection
order. -/
def minimal_cover (sets : List (Finset String)) : Option (List (Finset String)) :=
  if sets = [] then none
  else some (coverLoop sets (unionL sets).card (unionL sets) [])

/-- Length of the shortest list among a non-empty collection (the number of
tuples `zip(*...)` produces); `0` for the empty collection. -/
def minLen : List (List String) → Nat
  | [] => 0
  | h :: t => t.foldl (fun m l => min m l.length) h.length

/-- `zip(*ls)`: the i-th tuple pairs the i-th element of every list, and
tuples exist only up to the shortest list. `zip()` of no iterables yields
nothing. -/
def zipN (ls : List (List String)) : List (List String) :=
  match ls with
  | [] => []
  | _ => (List.range (minLen ls)).map (fun i => ls.map (fun l => l.getD i ""))

/-- The round loop of `Database.indicators`: from the pool of still-unused
group keys compute a greedy cover, emit the zipped path tuples of the
cover's groups, then remove the cover's *keys* from the pool
(`versions.difference_update(cover)`). Fuel `nodes.length + 1` suffices:
each round with a non-empty cover removes at least one key from the pool. -/
def indicatorsLoop (db : Database) : Nat → List (Finset String) → List (List String) → List (List String)
  | 0, _, acc => acc
  | n + 1, vsets, acc =>
    match minimal_cover vsets with
    | some (c :: cs) =>
      indicatorsLoop db n (vsets.filter fun k => decide (k ∉ c :: cs))
        (acc ++ zipN ((c :: cs).map fun g => (lookupA db.nodes g).getD []))
    | _ => acc

/-- `Database.indicators`: the finite sequence of probe batches, starting
from the full list of group keys. -/
def Database.indicators (db : Database) : List (List String) :=
  indicatorsLoop db (db.nodes.length + 1) (keysOf db.nodes) []

/-- One batch of `check`: probe each path passing the filter; on an HTTP
200 whose fingerprint is known, report detection immediately (the probe
counter `tries` is not incremented on the detecting probe, matching the
early `return True`); otherwise count the probe and continue.  The third
component counts performed fetches. -/
def checkBatch (fps : List (Nat × Finset String)) (target : String → Nat × String)
    (filt : String → Bool) :
    List String → Nat → Nat → Bool × Nat × Nat
  | [], tries, fetched => (false, tries, fetched)
  | p :: rest, tries, fetched =>
    if filt p then
      if (target p).1 = 200 ∧ (lookupA fps (content_hash p (target p).2)).isSome then
        (true, tries, fetched + 1)
      else checkBatch fps target filt rest (tries + 1) (fetched + 1)
    else checkBatch fps target filt rest tries fetched

/-- The batch loop of `check`: the probe budget is tested only at the top
of each batch (`if tries > max_tries: return False`); running out of
batches falls off the end of the Python function (an implicit `None`,
which together with `False` is the falsy "not detected" result, modelled
as `false`). The second component counts performed fetches. -/
def checkGo (fps : List (Nat × Finset String)) (target : String → Nat × String)
    (filt : String → Bool) (maxTries : Nat) :
    List (List String) → Nat → Nat → Bool × Nat
  | [], _, fetched => (false, fetched)
  | b :: rest, tries, fetched =>
    if maxTries < tries then (false, fetched)
    else
      match checkBatch fps target filt b tries fetched with
      | (true, _, fetched2) => (true, fetched2)
      | (false, tries2, fetched2) => checkGo fps target filt maxTries rest tries2 fetched2

/-- `check(db, url, url_filter, max_tries)`: consume the indicator batches
in order, returning whether any probed path produced a known fingerprint,
together with the number of fetches performed. -/
def check (db : Database) (target : String → Nat × String) (filt : String → Bool)
    (maxTries : Nat) : Bool × Nat :=
  checkGo db.fingerprints target filt maxTries db.indicators 0 0

/-- Largest indicator batch size of a database. -/
def maxBatch (db : Database) : Nat :=
  (db.indicators.map List.length).foldl max 0

/-- Ranking key of `guess`: `abs(0.5 - len(current ∩ vs) / len(current))`
orders group keys (for a fixed non-empty `current`) exactly as
`|card current - 2 * card (current ∩ vs)|` does, which avoids rational
arithmetic. -/
def score (cur vs : Finset String) : Nat :=
  ((cur.card : Int) - 2 * ((cur ∩ vs).card : Int)).natAbs

/-- The `valid` filter of `guess`: group keys that intersect the candidate
set without containing all of it (so a probe can split the candidates),
and whose path set is not already fully queried. -/
def validKeys (db : Database) (cur : Finset String) (queried : List String) : List (Finset String) :=
  (keysOf db.nodes).filter fun vs =>
    decide (vs ∩ cur ≠ ∅) && decide (vs ∩ cur ≠ cur) &&
      !((lookupA db.nodes vs).getD []).all (fun p => decide (p ∈ queried))

/-- Leftmost minimal-score element, the model of `sorted(valid, key=...)`
followed by `ranks[0]`; ties (which Python breaks by `random.random()`)
are determinized to the first-listed key. -/
def pickMin (f : Finset String → Nat) : List (Finset String) → Option (Finset String)
  | [] => none
  | h :: t => some (t.foldl (fun best x => if f x < f best then x else best) h)

/-- The inner path loop of `guess`: each not-yet-queried path is marked
queried *before* the filter or the fetch is consulted; on an HTTP 200
whose fingerprint is known the candidate set is narrowed and the loop
breaks (`Bool` result `true`); an unknown fingerprint or a non-200 status
moves on to the next path.  Returns (new current, narrowed?, queried,
fetched paths). -/
def guessProbe (db : Database) (target : String → Nat × String) (filt : String → Bool)
    (cur : Finset String) :
    List String → List String → List String → Finset String × Bool × List String × List String
  | [], queried, fetched => (cur, false, queried, fetched)
  | p :: rest, queried, fetched =>
    if p ∈ queried then guessProbe db target filt cur rest queried fetched
    else
      if filt p then
        if (target p).1 = 200 then
          match lookupA db.fingerprints (content_hash p (target p).2) with
          | some vset => (cur ∩ vset, true, queried ++ [p], fetched ++ [p])
          | none => guessProbe db target filt cur rest (queried ++ [p]) (fetched ++ [p])
        else guessProbe db target filt cur rest (queried ++ [p]) (fetched ++ [p])
      else guessProbe db target filt cur rest (queried ++ [p]) fetched

/-- Final result of `guess`: `if not current: return previous` (the Python
`None` of an initial `previous` is `Option.none`), else `current`. -/
def guessRet (cur : Finset String) (prev : Option (Finset String)) : Option (Finset String) :=
  if cur = ∅ then prev else some cur

/-- The `while len(current) > 1` loop of `guess`, fueled; each iteration
that recurses marks at least one new path queried, so the fuel used by
`guess` below always reaches the natural stop first (the termination
theorem). Returns `none` only on fuel exhaustion. -/
def guessGo (db : Database) (target : String → Nat × String) (filt : String → Bool) :
    Nat → Finset String → Option (Finset String) → List String → List String →
      Option (Option (Finset String) × List String)
  | 0, _, _, _, _ => none
  | n + 1, cur, prev, queried, fetched =>
    if cur.card ≤ 1 then some (guessRet cur prev, fetched)
    else
      match pickMin (score cur) (validKeys db cur queried) with
      | none => some (guessRet cur prev, fetched)
      | some best =>
        match guessProbe db target filt cur ((lookupA db.nodes best).getD []) queried fetched with
        | (cur2, narrowed, queried2, fetched2) =>
          guessGo db target filt n cur2 (if narrowed then some cur else prev) queried2 fetched2

/-- All paths stored in the database's groups, with multiplicity. -/
def pathUniverse (db : Database) : List String :=
  db.nodes.foldl (fun acc kv => acc ++ kv.2) []

/-- `guess(db, url, url_filter)`: narrow the candidate set starting from
all known versions.  The result pairs the Python return value (`none`
models Python's `None`) with the list of fetched paths. -/
def guess (db : Database) (target : String → Nat × String) (filt : String → Bool) :
    Option (Option (Finset String) × List String) :=
  guessGo db target filt ((pathUniverse db).length + 1) db.versions none [] []

/-- Modelled from the spec: the `indicatorBatches` round loop as the spec
words it — maintain `remainingVersions` (a set of *versions*), each round
compute a greedy cover of the still-relevant group keys, emit the zipped
tuples, then remove the cover's *member versions* from
`remainingVersions`, stopping when the cover is empty.  This is the
claimed behaviour, to be compared with `Database.indicators` above, which
instead removes the cover's *keys* from a pool of group keys. -/
def specIndicatorsLoop (db : Database) : Nat → Finset String → List (List String) → List (List String)
  | 0, _, acc => acc
  | n + 1, remaining, acc =>
    match minimal_cover ((keysOf db.nodes).filter fun k => decide (k ∩ remaining ≠ ∅)) with
    | some (c :: cs) =>
      specIndicatorsLoop db n (remaining \ unionL (c :: cs))
        (acc ++ zipN ((c :: cs).map fun g => (lookupA db.nodes g).getD []))
    | _ => acc

/-- Modelled from the spec: `indicatorBatches(database)` per the claim's
wording. -/
def specIndicatorBatches (db : Database) : List (List String) :=
  specIndicatorsLoop db (db.nodes.length + 1) db.versions []

/-- A path was ingested (after stripping) from some archive of the corpus. -/
def ingested (corpus : List (String × List (String × String))) (skip : Nat) (p : String) : Prop :=
  ∃ a ∈ corpus, ∃ f ∈ a.2, stripPath skip f.1 = p

/-- The set of corpus versions that contain a file at (stripped) path `p`. -/
def owners (corpus : List (String × List (String × String))) (skip : Nat) (p : String) : Finset String :=
  corpus.foldl
    (fun s a => if ∃ f ∈ a.2, stripPath skip f.1 = p then insert a.1 s else s) ∅

/-- Membership of a path in the group keyed by `vs`. -/
def MemVal (m : List (Finset String × List String)) (vs : Finset String) (p : String) : Prop :=
  ∃ l, lookupA m vs = some l ∧ p ∈ l

/-- Content equality of two group maps: the same presence patterns are
present, and each pattern's path set has the same members. -/
def NodesEquiv (m1 m2 : List (Finset String × List String)) : Prop :=
  (∀ vs, (lookupA m1 vs).isSome ↔ (lookupA m2 vs).isSome) ∧
    (∀ vs p, MemVal m1 vs p ↔ MemVal m2 vs p)

/-- A target that serves no (path, content) pair whose fingerprint is in
the database. -/
def noKnown (fps : List (Nat × Finset String)) (target : String → Nat × String) : Prop :=
  ∀ p, (target p).1 = 200 → lookupA fps (content_hash p (target p).2) = none

/-- The two-version example corpus of the spec's example scenario. -/
def corpus1 : List (String × List (String × String)) :=
  [("1.0", [("a.txt", "X"), ("b.txt", "Y")]), ("2.0", [("a.txt", "X"), ("b.txt", "Z")])]

/-- Database built from the example corpus. -/
def exDb1 : Database := Database.generate ⟨[], []⟩ corpus1 0

/-- Target of the example scenario, serving `b.txt` with content `Z`. -/
def target1 : String → Nat × String :=
  fun p => if p = "b.txt" then (200, "Z") else (404, "")

/-- A database whose two groups have different sizes, so that the cover of
the first round does not use every group. -/
def exDb3 : Database :=
  ⟨[], [({"A"}, ["p1"]), ({"A", "B"}, ["p2"])]⟩

/-- A database whose single cover round pairs two groups of two paths,
giving indicator batches of size two. -/
def exDb4 : Database :=
  ⟨[], [({"1"}, ["pa1", "pa2"]), ({"2"}, ["pb1", "pb2"])]⟩

/-- A target that serves nothing. -/
def target4 : String → Nat × String := fun _ => (404, "")

/-- A database holding a fingerprint whose version set is disjoint from
the version universe, so probing it produces a contradiction during
narrowing. -/
def exDb6 : Database :=
  ⟨[(content_hash "pa" "W", {"3"})], [({"1"}, ["pa"]), ({"2"}, ["pb"])]⟩

/-- Target producing the contradictory fingerprint at path `pa`. -/
def target6 : String → Nat × String :=
  fun p => if p = "pa" then (200, "W") else (404, "")

/-- Example corpus whose single archive fails after one good entry. -/
def corpusBad : List (String × List (Except Unit (String × String))) :=
  [("1.0", [Except.ok ("a.txt", "X"), Except.error ()])]

/-- Lookup after an `upsert`: the updated key sees the updated value, all
other keys are untouched. -/
lemma lookupA_upsert {α β : Type} [DecidableEq α] (m : List (α × β)) (k j : α) (f : Option β → β) :
    lookupA (upsert k f m) j = if j = k then some (f (lookupA m k)) else lookupA m j := by
  induction m with
  | nil =>
    by_cases h : j = k
    · subst h
      simp [upsert, lookupA]
    · have h2 : ¬ k = j := fun he => h he.symm
      simp [upsert, lookupA, h, h2]
  | cons e t ih =>
    obtain ⟨a, b⟩ := e
    by_cases hak : a = k
    · subst hak
      by_cases hj : j = a
      · subst hj
        simp [upsert, lookupA]
      · have h2 : ¬ a = j := fun he => hj he.symm
        simp [upsert, lookupA, hj, h2]
    · by_cases hj : a = j
      · subst hj
        simp [upsert, lookupA, hak]
      · simp [upsert, lookupA, hak, hj, ih]

/-- A key is present iff its lookup succeeds. -/
lemma mem_keysOf_iff_isSome {α β : Type} [DecidableEq α] (m : List (α × β)) (k : α) :
    k ∈ keysOf m ↔ (lookupA m k).isSome := by
  induction m with
  | nil => simp [keysOf, lookupA]
  | cons e t ih =>
    obtain ⟨a, b⟩ := e
    by_cases h : a = k
    · subst h
      simp [keysOf, lookupA]
    · have h2 : ¬ k = a := fun he => h he.symm
      rw [show lookupA ((a, b) :: t) k = lookupA t k by simp [lookupA, h]]
      rw [show keysOf ((a, b) :: t) = a :: keysOf t from rfl]
      rw [List.mem_cons]
      simp [h2, ih]

/-- A successful lookup returns an entry of the list. -/
lemma lookupA_eq_some_mem {α β : Type} [DecidableEq α] {m : List (α × β)} {k : α} {v : β}
    (h : lookupA m k = some v) : (k, v) ∈ m := by
  induction m with
  | nil => simp [lookupA] at h
  | cons e t ih =>
    obtain ⟨a, b⟩ := e
    by_cases hk : a = k
    · subst hk
      simp [lookupA] at h
      simp [h]
    · simp [lookupA, hk] at h
      simp [ih h]

/-- An entry's key always looks up to something. -/
lemma isSome_of_mem {α β : Type} [DecidableEq α] {m : List (α × β)} {k : α} {v : β}
    (h : (k, v) ∈ m) : (lookupA m k).isSome := by
  induction m with
  | nil => simp at h
  | cons e t ih =>
    obtain ⟨a, b⟩ := e
    by_cases hk : a = k
    · subst hk
      simp [lookupA]
    · rcases List.mem_cons.mp h with h1 | h1
      · exact absurd (congrArg Prod.fst h1).symm hk
      · simp [lookupA, hk, ih h1]

/-- Under unique keys, an entry is exactly what lookup finds. -/
lemma lookupA_of_mem_nodup {α β : Type} [DecidableEq α] {m : List (α × β)} {k : α} {v : β}
    (hd : (keysOf m).Nodup) (h : (k, v) ∈ m) : lookupA m k = some v := by
  induction m with
  | nil => simp at h
  | cons e t ih =>
    obtain ⟨a, b⟩ := e
    simp only [keysOf, List.map_cons, List.nodup_cons] at hd
    rcases List.mem_cons.mp h with h1 | h1
    · obtain ⟨h2, h3⟩ := Prod.mk.injEq .. ▸ h1.symm
      subst h2
      subst h3
      simp [lookupA]
    · have hak : a ≠ k := by
        intro he
        subst he
        exact hd.1 (List.mem_map.mpr ⟨(a, v), h1, rfl⟩)
      simp [lookupA, hak, ih hd.2 h1]

/-- `upsert` never removes keys and adds at most `k`. -/
lemma keysOf_upsert {α β : Type} [DecidableEq α] (m : List (α × β)) (k : α) (f : Option β → β) :
    keysOf (upsert k f m) = if k ∈ keysOf m then keysOf m else keysOf m ++ [k] := by
  induction m with
  | nil => simp [upsert, keysOf]
  | cons e t ih =>
    obtain ⟨a, b⟩ := e
    by_cases h : a = k
    · subst h
      simp [upsert, keysOf]
    · have h2 : ¬ k = a := fun he => h he.symm
      simp only [upsert, if_neg h, keysOf, List.map_cons, List.mem_cons, h2, false_or]
      by_cases h3 : k ∈ keysOf t
      · simp only [keysOf] at h3
        simp only [h3, if_pos, if_true]
        simp only [keysOf] at ih
        simp [ih, h3]
      · simp only [keysOf] at h3
        simp only [h3, if_false]
        simp only [keysOf] at ih
        simp [ih, h3]

/-- `upsert` preserves key uniqueness. -/
lemma nodup_keysOf_upsert {α β : Type} [DecidableEq α] {m : List (α × β)} (k : α) (f : Option β → β)
    (hd : (keysOf m).Nodup) : (keysOf (upsert k f m)).Nodup := by
  rw [keysOf_upsert]
  by_cases h : k ∈ keysOf m
  · simpa [h]
  · simp [h, List.nodup_append, hd]

/-- Membership in `insertNew`. -/
lemma mem_insertNew {α : Type} [DecidableEq α] (x y : α) (l : List α) :
    x ∈ insertNew y l ↔ x = y ∨ x ∈ l := by
  by_cases h : y ∈ l
  · simp only [insertNew, if_pos h]
    constructor
    · exact Or.inr
    · rintro (he | hx)
      · exact he ▸ h
      · exact hx
  · simp [insertNew, h, or_comm]

/-- Folding unions starting from `a` just unions `a` on the left. -/
lemma foldl_union_eq (l : List (Finset String)) (a : Finset String) :
    l.foldl (· ∪ ·) a = a ∪ unionL l := by
  induction l generalizing a with
  | nil => simp [unionL]
  | cons h t ih =>
    simp only [List.foldl_cons, unionL]
    rw [ih (a ∪ h), ih (∅ ∪ h)]
    rw [Finset.empty_union, Finset.union_assoc]

/-- Membership in the union of a list of sets. -/
lemma mem_unionL {x : String} {l : List (Finset String)} :
    x ∈ unionL l ↔ ∃ s ∈ l, x ∈ s := by
  induction l with
  | nil => simp [unionL]
  | cons h t ih =>
    simp only [unionL, List.foldl_cons]
    rw [foldl_union_eq t (∅ ∪ h), Finset.empty_union]
    simp only [Finset.mem_union, List.mem_cons]
    rw [ih]
    constructor
    · rintro (hx | ⟨s, hs, hxs⟩)
      · exact ⟨h, Or.inl rfl, hx⟩
      · exact ⟨s, Or.inr hs, hxs⟩
    · rintro ⟨s, hs | hs, hxs⟩
      · exact Or.inl (hs ▸ hxs)
      · exact Or.inr ⟨s, hs, hxs⟩

/-- The union of a sub-collection is contained in the union. -/
lemma unionL_subset {l1 l2 : List (Finset String)} (h : ∀ s ∈ l1, s ∈ l2) :
    unionL l1 ⊆ unionL l2 := by
  intro x hx
  rcases mem_unionL.mp hx with ⟨s, hs, hxs⟩
  exact mem_unionL.mpr ⟨s, h s hs, hxs⟩

/-- `unionL` over an append. -/
lemma unionL_append (l1 l2 : List (Finset String)) :
    unionL (l1 ++ l2) = unionL l1 ∪ unionL l2 := by
  simp only [unionL, List.foldl_append]
  rw [foldl_union_eq l2 (List.foldl (· ∪ ·) ∅ l1)]
  rfl

/-- The greedy choice is one of the candidates and has maximal gain. -/
lemma pickBest_foldl_spec (r : Finset String) (t : List (Finset String)) :
    ∀ best : Finset String,
      ((t.foldl (fun best s => if gain r best < gain r s then s else best) best = best ∨
        t.foldl (fun best s => if gain r best < gain r s then s else best) best ∈ t) ∧
       gain r best ≤ gain r (t.foldl (fun best s => if gain r best < gain r s then s else best) best) ∧
       (∀ s ∈ t, gain r s ≤ gain r (t.foldl (fun best s => if gain r best < gain r s then s else best) best))) := by
  induction t with
  | nil => intro best; exact ⟨Or.inl rfl, le_refl _, by simp⟩
  | cons s t ih =>
    intro best
    simp only [List.foldl_cons]
    by_cases h : gain r best < gain r s
    · rcases ih s with ⟨hm, hle, hall⟩
      refine ⟨?_, ?_, ?_⟩
      · simp only [if_pos h]
        rcases hm with hm | hm
        · exact Or.inr (by simp [hm])
        · exact Or.inr (by simp [hm])
      · simp only [if_pos h]
        exact le_trans (le_of_lt h) hle
      · intro u hu
        simp only [if_pos h]
        rcases List.mem_cons.mp hu with hu | hu
        · exact hu ▸ hle
        · exact hall u hu
    · rcases ih best with ⟨hm, hle, hall⟩
      refine ⟨?_, ?_, ?_⟩
      · simp only [if_neg h]
        rcases hm with hm | hm
        · exact Or.inl hm
        · exact Or.inr (by simp [hm])
      · simp only [if_neg h]
        exact hle
      · intro u hu
        simp only [if_neg h]
        rcases List.mem_cons.mp hu with hu | hu
        · exact le_trans (hu ▸ le_of_not_lt h) hle
        · exact hall u hu

/-- The greedy choice is among the input sets. -/
lemma pickBest_mem (r : Finset String) (h : Finset String) (t : List (Finset String)) :
    pickBest r (h :: t) ∈ h :: t := by
  simp only [pickBest]
  rcases (pickBest_foldl_spec r t h).1 with hm | hm
  · rw [hm]
    exact List.mem_cons_self _ _
  · exact List.mem_cons_of_mem _ hm

/-- The greedy choice dominates every candidate's gain. -/
lemma pickBest_le (r : Finset String) (h : Finset String) (t : List (Finset String))
    (s : Finset String) (hs : s ∈ h :: t) : gain r s ≤ gain r (pickBest r (h :: t)) := by
  simp only [pickBest]
  rcases (pickBest_foldl_spec r t h) with ⟨_, hle, hall⟩
  rcases List.mem_cons.mp hs with hs | hs
  · exact hs ▸ hle
  · exact hall s hs

/-- When the uncovered set is non-empty and covered by the candidates, the
greedy choice strictly shrinks it. -/
lemma pickBest_progress (sets : List (Finset String)) (r : Finset String)
    (hr : r ≠ ∅) (hcov : ∀ x ∈ r, ∃ s ∈ sets, x ∈ s) :
    (r \ pickBest r sets).card < r.card := by
  rcases Finset.nonempty_iff_ne_empty.mpr hr with ⟨x, hx⟩
  rcases hcov x hx with ⟨s, hs, hxs⟩
  rcases sets with _ | ⟨h, t⟩
  · simp at hs
  · have h1 : 1 ≤ gain r s := by
      have : x ∈ s ∩ r := Finset.mem_inter.mpr ⟨hxs, hx⟩
      exact Finset.card_pos.mpr ⟨x, this⟩
    have h2 : 1 ≤ gain r (pickBest r (h :: t)) := le_trans h1 (pickBest_le r h t s hs)
    rcases Finset.card_pos.mp h2 with ⟨y, hy⟩
    have hyb : y ∈ pickBest r (h :: t) := (Finset.mem_inter.mp hy).1
    have hyr : y ∈ r := (Finset.mem_inter.mp hy).2
    apply Finset.card_lt_card
    rw [Finset.ssubset_def]
    constructor
    · exact Finset.sdiff_subset
    · intro hsub
      exact (Finset.mem_sdiff.mp (hsub hyr)).2 hyb

/-- `coverLoop` only appends to the accumulator, and appends only input
sets. -/
lemma coverLoop_acc (sets : List (Finset String)) :
    ∀ n r c, ∃ d, coverLoop sets n r c = c ++ d ∧ (∀ x ∈ d, x ∈ sets ∨ sets = []) := by
  intro n
  induction n with
  | zero => intro r c; exact ⟨[], by simp [coverLoop]⟩
  | succ n ih =>
    intro r c
    by_cases hr : r = ∅
    · exact ⟨[], by simp [coverLoop, hr]⟩
    · rcases ih (r \ pickBest r sets) (c ++ [pickBest r sets]) with ⟨d, hd, hmem⟩
      refine ⟨pickBest r sets :: d, ?_, ?_⟩
      · simp only [coverLoop, if_neg hr]
        rw [hd]
        simp
      · intro x hx
        rcases List.mem_cons.mp hx with hx | hx
        · rcases sets with _ | ⟨h, t⟩
          · exact Or.inr rfl
          · exact Or.inl (hx ▸ pickBest_mem r h t)
        · exact hmem x hx

/-- Everything still uncovered (and everything already chosen) ends up in
the union of the final cover. -/
lemma coverLoop_covers (sets : List (Finset String)) :
    ∀ n r c, r.card ≤ n → (∀ x ∈ r, ∃ s ∈ sets, x ∈ s) →
      r ∪ unionL c ⊆ unionL (coverLoop sets n r c) := by
  intro n
  induction n with
  | zero =>
    intro r c hn _
    have : r = ∅ := Finset.card_eq_zero.mp (Nat.le_zero.mp hn)
    subst this
    simp [coverLoop]
  | succ n ih =>
    intro r c hn hcov
    by_cases hr : r = ∅
    · subst hr
      simp [coverLoop]
    · simp only [coverLoop, if_neg hr]
      have hlt : (r \ pickBest r sets).card < r.card := pickBest_progress sets r hr hcov
      have hle : (r \ pickBest r sets).card ≤ n := by omega
      have hcov2 : ∀ x ∈ r \ pickBest r sets, ∃ s ∈ sets, x ∈ s :=
        fun x hx => hcov x (Finset.mem_sdiff.mp hx).1
      have hih := ih (r \ pickBest r sets) (c ++ [pickBest r sets]) hle hcov2
      intro x hx
      apply hih
      rcases Finset.mem_union.mp hx with hx | hx
      · by_cases hb : x ∈ pickBest r sets
        · apply Finset.mem_union_right
          exact mem_unionL.mpr ⟨pickBest r sets, by simp, hb⟩
        · exact Finset.mem_union_left _ (Finset.mem_sdiff.mpr ⟨hx, hb⟩)
      · apply Finset.mem_union_right
        rcases mem_unionL.mp hx with ⟨s, hs, hxs⟩
        exact mem_unionL.mpr ⟨s, by simp [hs], hxs⟩

/-- C5 (amended): `minimal_cover` returns `none` exactly on the empty
collection; otherwise it returns a sub-collection of its input whose union
equals the union of the input, and the result is non-empty whenever the
*union* of the input is non-empty.  (The original claim asserted a
non-empty result for every non-empty input, which fails on `[∅]`.) -/
theorem minimal_cover_spec : ∀ sets : List (Finset String),
    (sets = [] → minimal_cover sets = none) ∧
    (sets ≠ [] → ∃ cover, minimal_cover sets = some cover ∧
      (∀ c ∈ cover, c ∈ sets) ∧ unionL cover = unionL sets ∧
      (unionL sets ≠ ∅ → cover ≠ [])) := by
  intro sets
  constructor
  · intro h
    simp [minimal_cover, h]
  · intro h
    refine ⟨coverLoop sets (unionL sets).card (unionL sets) [], by simp [minimal_cover, h], ?_, ?_, ?_⟩
    · intro c hc
      rcases coverLoop_acc sets (unionL sets).card (unionL sets) [] with ⟨d, hd, hmem⟩
      rw [hd] at hc
      rcases hmem c (by simpa using hc) with hm | hm
      · exact hm
      · exact absurd hm h
    · apply Finset.Subset.antisymm
      · apply unionL_subset
        intro c hc
        rcases coverLoop_acc sets (unionL sets).card (unionL sets) [] with ⟨d, hd, hmem⟩
        rw [hd] at hc
        rcases hmem c (by simpa using hc) with hm | hm
        · exact hm
        · exact absurd hm h
      · have := coverLoop_covers sets (unionL sets).card (unionL sets) [] le_rfl
          (fun x hx => mem_unionL.mp hx)
        intro x hx
        exact this (Finset.mem_union_left _ hx)
    · intro hne
      have hpos : 0 < (unionL sets).card :=
        Finset.card_pos.mpr (Finset.nonempty_iff_ne_empty.mpr hne)
      obtain ⟨m, hm⟩ := Nat.exists_eq_succ_of_ne_zero (Nat.pos_iff_ne_zero.mp hpos)
      rw [hm]
      simp only [coverLoop, if_neg hne]
      rcases coverLoop_acc sets m (unionL sets \ pickBest (unionL sets) sets)
        ([] ++ [pickBest (unionL sets) sets]) with ⟨d, hd, _⟩
      rw [hd]
      simp

/-- C5 counterexample: on the non-empty collection `[∅]` the greedy cover
comes back empty (`some []`), refuting "for every non-empty `S` the result
is non-empty". -/
theorem minimal_cover_nonempty_cx :
    minimal_cover [(∅ : Finset String)] = some [] ∧
      [(∅ : Finset String)] ≠ ([] : List (Finset String)) := by
  constructor <;> decide

/-- C5 witness: the amended statement evaluated on the one-set collection
`[{"A"}]`. -/
theorem minimal_cover_spec_witness :
    [({"A"} : Finset String)] ≠ [] ∧
      ∃ cover, minimal_cover [({"A"} : Finset String)] = some cover ∧
        (∀ c ∈ cover, c ∈ [({"A"} : Finset String)]) ∧
        unionL cover = unionL [({"A"} : Finset String)] ∧
        (unionL [({"A"} : Finset String)] ≠ ∅ → cover ≠ []) :=
  ⟨by decide, (minimal_cover_spec [({"A"} : Finset String)]).2 (by decide)⟩

/-- `zip(*ls)` produces exactly as many tuples as the shortest list. -/
lemma zipN_length (ls : List (List String)) (h : ls ≠ []) :
    (zipN ls).length = minLen ls := by
  rcases ls with _ | ⟨a, t⟩
  · exact absurd rfl h
  · simp [zipN]

/-- Every tuple of `zip(*ls)` has one component per zipped list. -/
lemma zipN_mem_length (ls : List (List String)) (t : List String) (h : t ∈ zipN ls) :
    t.length = ls.length := by
  rcases ls with _ | ⟨a, s⟩
  · simp [zipN] at h
  · simp only [zipN, List.mem_map] at h
    rcases h with ⟨i, _, hi⟩
    rw [← hi]
    simp

/-- C3 (amended): each round of `Database.indicators` computes a greedy
cover of the pool of still-unused *group keys*, emits one tuple per index
up to the smallest path count among the cover's groups — each tuple
pairing the i-th path of every cover group, hence of length equal to the
cover size — and then removes the cover's *keys* (not the cover's member
versions) from the pool before the next round, stopping when the cover is
empty.  (The original claim said the cover's member versions are removed
from a set of remaining versions, which the counterexample below
refutes.) -/
theorem indicators_round_spec : ∀ (db : Database) (n : Nat) (vsets : List (Finset String))
    (acc : List (List String)) (c : Finset String) (cs : List (Finset String)),
    minimal_cover vsets = some (c :: cs) →
    (indicatorsLoop db (n + 1) vsets acc =
      indicatorsLoop db n (vsets.filter fun k => decide (k ∉ c :: cs))
        (acc ++ zipN ((c :: cs).map fun g => (lookupA db.nodes g).getD []))) ∧
    (∀ t ∈ zipN ((c :: cs).map fun g => (lookupA db.nodes g).getD []),
        t.length = (c :: cs).length) ∧
    ((zipN ((c :: cs).map fun g => (lookupA db.nodes g).getD [])).length =
        minLen ((c :: cs).map fun g => (lookupA db.nodes g).getD [])) ∧
    (∀ g ∈ c :: cs, g ∈ vsets) := by
  intro db n vsets acc c cs hmc
  have hv : vsets ≠ [] := by
    intro h
    rw [h] at hmc
    simp [minimal_cover] at hmc
  refine ⟨?_, ?_, ?_, ?_⟩
  · simp only [indicatorsLoop, hmc]
  · intro t ht
    rw [zipN_mem_length _ t ht]
    simp
  · exact zipN_length _ (by simp)
  · intro g hg
    have hc : c :: cs = coverLoop vsets (unionL vsets).card (unionL vsets) [] := by
      simp only [minimal_cover, if_neg hv] at hmc
      exact (Option.some.injEq .. ▸ hmc).symm
    rcases coverLoop_acc vsets (unionL vsets).card (unionL vsets) [] with ⟨d, hd, hmem⟩
    rw [← hc] at hd
    have hdd : d = c :: cs := by simpa using hd.symm
    rcases hmem g (by rw [hdd]; exact hg) with hm | hm
    · exact hm
    · exact absurd hm hv

/-- C3 counterexample: on a database with groups
`{A} ↦ {p1}, {A,B} ↦ {p2}` the code's `indicators` runs a second round
(emitting `p1`) because only the cover's *key* `{A,B}` leaves the pool,
while the claimed behaviour — removing the cover's member versions `A, B`
from `remainingVersions` — stops after one round. -/
theorem indicators_spec_mismatch :
    specIndicatorBatches exDb3 ≠ Database.indicators exDb3 := by decide

/-- C3 witness: the per-round description evaluated on the two-group
example database. -/
theorem indicators_round_spec_witness :
    (indicatorsLoop exDb3 (1 + 1) (keysOf exDb3.nodes) [] =
      indicatorsLoop exDb3 1 ((keysOf exDb3.nodes).filter fun k => decide (k ∉ [({"A", "B"} : Finset String)]))
        ([] ++ zipN (([({"A", "B"} : Finset String)]).map fun g => (lookupA exDb3.nodes g).getD []))) ∧
    (∀ t ∈ zipN (([({"A", "B"} : Finset String)]).map fun g => (lookupA exDb3.nodes g).getD []),
        t.length = ([({"A", "B"} : Finset String)]).length) ∧
    ((zipN (([({"A", "B"} : Finset String)]).map fun g => (lookupA exDb3.nodes g).getD [])).length =
        minLen (([({"A", "B"} : Finset String)]).map fun g => (lookupA exDb3.nodes g).getD [])) ∧
    (∀ g ∈ [({"A", "B"} : Finset String)], g ∈ keysOf exDb3.nodes) :=
  indicators_round_spec exDb3 1 (keysOf exDb3.nodes) [] {"A", "B"} [] (by decide)

/-- C1 counterexample: on the database built from the spec's own example
corpus, both paths fall into the single presence group keyed by
`{"1.0","2.0"}`; that group intersected with the candidate set equals the
candidate set, so `guess` filters it out as non-informative, never fetches
anything, and returns the full set `{"1.0","2.0"}` — not the claimed
`{"2.0"}`. -/
theorem guess_example_cx :
    guess exDb1 target1 (fun _ => true) = some (some {"1.0", "2.0"}, []) ∧
      some (some ({"1.0", "2.0"} : Finset String), ([] : List String)) ≠
        some (some ({"2.0"} : Finset String), ([] : List String)) := by
  constructor
  · have h1 : guess exDb1 target1 (fun _ => true) = some (some {"2.0", "1.0"}, []) := rfl
    have h2 : ({"2.0", "1.0"} : Finset String) = {"1.0", "2.0"} := by decide
    rw [h1, h2]
  · intro h
    simp only [Option.some.injEq, Prod.mk.injEq, and_true] at h
    exact absurd h (by decide)

/-- C1 (amended): the two maps are as the claim states — fingerprints
`hash(a.txt,X) ↦ {"1.0","2.0"}`, `hash(b.txt,Y) ↦ {"1.0"}`,
`hash(b.txt,Z) ↦ {"2.0"}`, and a single group
`{"1.0","2.0"} ↦ {a.txt, b.txt}` — but `guess` against the target serving
`b.txt = Z` returns the full candidate set `{"1.0","2.0"}` (with no
fetches), because the only group key equals the candidate set and is
rejected by the informativeness filter. -/
theorem example_scenario_amended :
    exDb1.fingerprints =
      [(content_hash "a.txt" "X", {"1.0", "2.0"}),
       (content_hash "b.txt" "Y", {"1.0"}),
       (content_hash "b.txt" "Z", {"2.0"})] ∧
    exDb1.nodes = [({"1.0", "2.0"}, ["a.txt", "b.txt"])] ∧
    guess exDb1 target1 (fun _ => true) = some (some {"1.0", "2.0"}, []) := by
  refine ⟨by decide, by decide, ?_⟩
  have h1 : guess exDb1 target1 (fun _ => true) = some (some {"2.0", "1.0"}, []) := rfl
  have h2 : ({"2.0", "1.0"} : Finset String) = {"1.0", "2.0"} := by decide
  rw [h1, h2]

/-- C2: evaluation of `generate` at a corpus whose single archive `"1.0"`
yields one good entry (`a.txt` with content `X`) and then a corrupt entry.
The failure is surfaced (`false`), but the aborted version is *not*
atomic: its fingerprint entry is already recorded (because the Python code
mutates `self.fingerprints` in place while iterating the tar), while
`nodes` is left untouched, so the failing version appears in the
fingerprints map but in no group key. -/
theorem generate_failure_leaves_trace :
    Database.generateE ⟨[], []⟩ corpusBad 0 =
      (⟨[(content_hash "a.txt" "X", {"1.0"})], []⟩, false) ∧
    (∃ kv ∈ (Database.generateE ⟨[], []⟩ corpusBad 0).1.fingerprints, "1.0" ∈ kv.2) ∧
    (Database.generateE ⟨[], []⟩ corpusBad 0).1.nodes = [] := by
  refine ⟨by decide, ⟨(content_hash "a.txt" "X", {"1.0"}), by decide, by decide⟩, by decide⟩

/-- C4 counterexample: with `maxTries = 0` and a first indicator batch of
two paths, `check` probes *both* paths of the batch (2 fetches) before the
budget test at the next batch boundary, violating "returns not detected,
performing no further probes, once the probe counter exceeds maxTries"
(which would allow at most `maxTries + 1 = 1` fetch). -/
theorem check_budget_cx :
    check exDb4 target4 (fun _ => true) 0 = (false, 2) ∧ ¬ (2 ≤ 0 + 1) := by
  constructor <;> decide

/-- A no-match batch probes every filtered path, counting each one. -/
lemma checkBatch_noKnown (fps : List (Nat × Finset String)) (target : String → Nat × String)
    (filt : String → Bool) (hnk : noKnown fps target) :
    ∀ (b : List String) (tries fetched : Nat), ∃ k,
      checkBatch fps target filt b tries fetched = (false, tries + k, fetched + k) ∧
        k ≤ b.length := by
  intro b
  induction b with
  | nil => exact fun t f => ⟨0, by simp [checkBatch]⟩
  | cons p rest ih =>
    intro t f
    by_cases hf : filt p = true
    · have hcond : ¬ ((target p).1 = 200 ∧ (lookupA fps (content_hash p (target p).2)).isSome) := by
        rintro ⟨h200, hs⟩
        rw [hnk p h200] at hs
        simp at hs
      rcases ih (t + 1) (f + 1) with ⟨k, hk, hkb⟩
      refine ⟨k + 1, ?_, by simpa using Nat.succ_le_succ hkb⟩
      simp only [checkBatch, if_pos hf, if_neg hcond]
      rw [hk]
      have h1 : t + 1 + k = t + (k + 1) := by omega
      have h2 : f + 1 + k = f + (k + 1) := by omega
      rw [h1, h2]
    · rcases ih t f with ⟨k, hk, hkb⟩
      refine ⟨k, ?_, by simpa using Nat.le_succ_of_le hkb⟩
      simpa only [checkBatch, if_neg hf] using hk

/-- The batch loop under a no-match target: never detects, and never
fetches more than `maxTries + B` paths when every batch has at most `B`
paths (the budget is tested at batch boundaries only). -/
lemma checkGo_noKnown (fps : List (Nat × Finset String)) (target : String → Nat × String)
    (filt : String → Bool) (maxTries B : Nat) (hnk : noKnown fps target) :
    ∀ (batches : List (List String)) (tries fetched : Nat), tries = fetched →
      fetched ≤ maxTries + B → (∀ b ∈ batches, b.length ≤ B) →
      (checkGo fps target filt maxTries batches tries fetched).1 = false ∧
      (checkGo fps target filt maxTries batches tries fetched).2 ≤ maxTries + B := by
  intro batches
  induction batches with
  | nil => exact fun t f hte hb _ => ⟨rfl, hb⟩
  | cons b rest ih =>
    intro t f hte hb hlen
    by_cases hmt : maxTries < t
    · simp only [checkGo, if_pos hmt]
      exact ⟨by simp, hb⟩
    · rcases checkBatch_noKnown fps target filt hnk b t f with ⟨k, hk, hkb⟩
      simp only [checkGo, if_neg hmt, hk]
      have hbB : b.length ≤ B := hlen b (by simp)
      apply ih (t + k) (f + k) (by omega) (by omega)
      intro b2 hb2
      exact hlen b2 (by simp [hb2])

/-- Any value in a list is bounded by a `foldl max`. -/
lemma le_foldl_max : ∀ (l : List Nat) (a : Nat), a ≤ l.foldl max a := by
  intro l
  induction l with
  | nil => simp
  | cons h t ih =>
    intro a
    calc a ≤ max a h := le_max_left a h
    _ ≤ t.foldl max (max a h) := ih (max a h)

/-- Members of a list are bounded by its `foldl max`. -/
lemma mem_le_foldl_max : ∀ (l : List Nat) (a x : Nat), x ∈ l → x ≤ l.foldl max a := by
  intro l
  induction l with
  | nil => intro a x hx; simp at hx
  | cons h t ih =>
    intro a x hx
    rcases List.mem_cons.mp hx with hx | hx
    · subst hx
      calc x ≤ max a x := le_max_right a x
      _ ≤ t.foldl max (max a x) := le_foldl_max t (max a x)
    · exact ih (max a h) x hx

/-- C4 (amended): against a target that serves no known (path, content)
pair, `check` returns "not detected" — either at a batch boundary once the
probe counter exceeds `maxTries`, or when the batch sequence is exhausted
— performing at most `maxTries` plus one full batch of probes (the budget
test happens only between batches, so the current batch may overshoot the
budget by up to its own size, as the counterexample shows). -/
theorem check_spec : ∀ (db : Database) (target : String → Nat × String)
    (filt : String → Bool) (maxTries : Nat),
    noKnown db.fingerprints target →
    (check db target filt maxTries).1 = false ∧
    (check db target filt maxTries).2 ≤ maxTries + maxBatch db := by
  intro db target filt maxTries hnk
  apply checkGo_noKnown db.fingerprints target filt maxTries (maxBatch db) hnk
    db.indicators 0 0 rfl (by omega)
  intro b hb
  exact mem_le_foldl_max _ 0 _ (List.mem_map.mpr ⟨b, hb, rfl⟩)

/-- C4 witness: the amended statement evaluated on the two-group example
database against a target that serves nothing. -/
theorem check_spec_witness :
    (check exDb4 target4 (fun _ => true) 5).1 = false ∧
      (check exDb4 target4 (fun _ => true) 5).2 ≤ 5 + maxBatch exDb4 :=
  check_spec exDb4 target4 (fun _ => true) 5 (by intro p h; simp [target4] at h)

/-- C7: on a database with an empty groups map (hence an empty derived
version set), `check` returns "not detected" having performed zero
fetches, and `guess` returns Python's `None` having performed zero
fetches; neither raises. -/
theorem empty_db_no_answer : ∀ (fps : List (Nat × Finset String))
    (target : String → Nat × String) (filt : String → Bool) (maxTries : Nat),
    check ⟨fps, []⟩ target filt maxTries = (false, 0) ∧
    guess ⟨fps, []⟩ target filt = some (none, []) := by
  intro fps target filt maxTries
  refine ⟨?_, ?_⟩ <;> rfl

/-- A probe pass that did not narrow leaves the candidate set unchanged. -/
lemma guessProbe_cur_of_not_narrowed (db : Database) (target : String → Nat × String)
    (filt : String → Bool) : ∀ (ps : List String) (cur : Finset String)
    (queried fetched q2 f2 : List String) (cur2 : Finset String),
    guessProbe db target filt cur ps queried fetched = (cur2, false, q2, f2) → cur2 = cur := by
  intro ps
  induction ps with
  | nil =>
    intro cur queried fetched q2 f2 cur2 h
    simp only [guessProbe] at h
    exact (Prod.mk.injEq .. ▸ h).1.symm
  | cons p rest ih =>
    intro cur queried fetched q2 f2 cur2 h
    by_cases hq : p ∈ queried
    · simp only [guessProbe, if_pos hq] at h
      exact ih cur queried fetched q2 f2 cur2 h
    · by_cases hf : filt p = true
      · by_cases hs : (target p).1 = 200
        · rcases hl : lookupA db.fingerprints (content_hash p (target p).2) with _ | vset
          · simp only [guessProbe, if_neg hq, if_pos hf, if_pos hs, hl] at h
            exact ih cur (queried ++ [p]) (fetched ++ [p]) q2 f2 cur2 h
          · simp only [guessProbe, if_neg hq, if_pos hf, if_pos hs, hl, Prod.mk.injEq] at h
            exact absurd h.2.1 (by simp)
        · simp only [guessProbe, if_neg hq, if_pos hf, if_neg hs] at h
          exact ih cur (queried ++ [p]) (fetched ++ [p]) q2 f2 cur2 h
      · simp only [guessProbe, if_neg hq, if_neg hf] at h
        exact ih cur (queried ++ [p]) fetched q2 f2 cur2 h

/-- C6: (a) whenever the chosen group's probe pass narrows the candidate
set to the empty set (a contradiction), the loop exits at once and `guess`
returns `previous` — the value of `current` just before that step, which
is non-empty since the loop guard required at least two candidates —
rather than raising or returning the empty set; (b) whenever `current` is
non-empty (or a non-empty `previous` exists), the returned set is a
non-empty `some` — in particular the final `current` when it never became
empty. -/
theorem guess_contradiction_spec :
    (∀ (db : Database) (target : String → Nat × String) (filt : String → Bool)
        (n : Nat) (cur : Finset String) (prev : Option (Finset String))
        (queried fetched q2 f2 : List String) (best : Finset String),
        2 ≤ cur.card →
        pickMin (score cur) (validKeys db cur queried) = some best →
        guessProbe db target filt cur ((lookupA db.nodes best).getD []) queried fetched
          = (∅, true, q2, f2) →
        guessGo db target filt (n + 2) cur prev queried fetched = some (some cur, f2)) ∧
    (∀ (db : Database) (target : String → Nat × String) (filt : String → Bool)
        (n : Nat) (cur : Finset String) (prev : Option (Finset String))
        (queried fetched : List String) (res : Option (Finset String) × List String),
        (cur ≠ ∅ ∨ ∃ s, prev = some s ∧ s ≠ ∅) →
        guessGo db target filt n cur prev queried fetched = some res →
        ∃ s, res.1 = some s ∧ s ≠ ∅) := by
  constructor
  · intro db target filt n cur prev queried fetched q2 f2 best hcard hpick hprobe
    have hne : ¬ cur.card ≤ 1 := by omega
    rw [show n + 2 = n + 1 + 1 from rfl]
    simp only [guessGo, if_neg hne, hpick, hprobe, if_true]
    simp [guessRet]
  · intro db target filt n
    induction n with
    | zero =>
      intro cur prev queried fetched res hA hres
      simp [guessGo] at hres
    | succ n ih =>
      intro cur prev queried fetched res hA hres
      by_cases hc : cur.card ≤ 1
      · simp only [guessGo, if_pos hc, Option.some.injEq] at hres
        subst hres
        by_cases he : cur = ∅
        · rcases hA with hA | ⟨s, hps, hsne⟩
          · exact absurd he hA
          · exact ⟨s, by simp [guessRet, he, hps], hsne⟩
        · exact ⟨cur, by simp [guessRet, he], he⟩
      · have hne : cur ≠ ∅ := by
          intro he
          rw [he] at hc
          simp at hc
        cases hpick : pickMin (score cur) (validKeys db cur queried) with
        | none =>
          simp only [guessGo, if_neg hc, hpick, Option.some.injEq] at hres
          subst hres
          exact ⟨cur, by simp [guessRet, hne], hne⟩
        | some best =>
          rcases hp : guessProbe db target filt cur ((lookupA db.nodes best).getD [])
            queried fetched with ⟨cur2, narrowed, q2, f2⟩
          simp only [guessGo, if_neg hc, hpick, hp] at hres
          apply ih cur2 (if narrowed then some cur else prev) q2 f2 res ?_ hres
          cases narrowed with
          | true => exact Or.inr ⟨cur, by simp, hne⟩
          | false =>
            left
            rw [guessProbe_cur_of_not_narrowed db target filt _ cur queried fetched q2 f2 cur2 hp]
            exact hne

/-- C6 witness: on a database holding a fingerprint with version set
`{"3"}` disjoint from the candidates `{"1","2"}`, the probe of `pa`
narrows to the empty set and `guess`'s loop returns the previous
candidate set `{"1","2"}`. -/
theorem guess_contradiction_witness :
    guessGo exDb6 target6 (fun _ => true) 2 {"1", "2"} none [] [] =
      some (some {"1", "2"}, ["pa"]) :=
  guess_contradiction_spec.1 exDb6 target6 (fun _ => true) 0 {"1", "2"} none [] [] ["pa"] ["pa"]
    {"1"} (by decide) (by decide) (by decide)

/-- The top-ranked group is one of the valid candidates. -/
lemma pickMin_mem (f : Finset String → Nat) : ∀ (l : List (Finset String)) (x : Finset String),
    pickMin f l = some x → x ∈ l := by
  intro l
  rcases l with _ | ⟨h, t⟩
  · intro x hx
    simp [pickMin] at hx
  · intro x hx
    simp only [pickMin, Option.some.injEq] at hx
    subst hx
    have : ∀ (t : List (Finset String)) (b : Finset String),
        t.foldl (fun best x => if f x < f best then x else best) b = b ∨
          t.foldl (fun best x => if f x < f best then x else best) b ∈ t := by
      intro t
      induction t with
      | nil => exact fun b => Or.inl rfl
      | cons s t2 ih =>
        intro b
        simp only [List.foldl_cons]
        by_cases hc : f s < f b
        · simp only [if_pos hc]
          rcases ih s with hm | hm
          · exact Or.inr (by simp [hm])
          · exact Or.inr (by simp [hm])
        · simp only [if_neg hc]
          rcases ih b with hm | hm
          · exact Or.inl hm
          · exact Or.inr (by simp [hm])
    rcases this t h with hm | hm
    · rw [hm]
      exact List.mem_cons_self _ _
    · exact List.mem_cons_of_mem _ hm

/-- A valid group key owns at least one not-yet-queried path. -/
lemma validKeys_not_subset {db : Database} {cur : Finset String} {queried : List String}
    {vs : Finset String} (h : vs ∈ validKeys db cur queried) :
    ∃ p ∈ (lookupA db.nodes vs).getD [], p ∉ queried := by
  rcases List.mem_filter.mp h with ⟨_, hcond⟩
  simp only [Bool.and_eq_true, Bool.not_eq_true'] at hcond
  rcases hcond with ⟨_, hall⟩
  by_contra hnone
  push_neg at hnone
  have : ((lookupA db.nodes vs).getD []).all (fun p => decide (p ∈ queried)) = true := by
    rw [List.all_eq_true]
    intro p hp
    simpa using hnone p hp
  rw [this] at hall
  simp at hall

/-- Folding list-append over groups, with a generalized accumulator. -/
lemma foldl_append_eq (l : List (Finset String × List String)) :
    ∀ a : List String, l.foldl (fun acc kv => acc ++ kv.2) a
      = a ++ l.foldl (fun acc kv => acc ++ kv.2) [] := by
  induction l with
  | nil => intro a; simp
  | cons e t ih =>
    intro a
    simp only [List.foldl_cons]
    rw [ih (a ++ e.2), ih ([] ++ e.2)]
    simp

/-- Membership in the path universe. -/
lemma mem_pathUniverse {db : Database} {x : String} :
    x ∈ pathUniverse db ↔ ∃ kv ∈ db.nodes, x ∈ kv.2 := by
  show x ∈ db.nodes.foldl (fun acc kv => acc ++ kv.2) [] ↔ _
  induction db.nodes with
  | nil => simp
  | cons e t ih =>
    simp only [List.foldl_cons]
    rw [foldl_append_eq t ([] ++ e.2)]
    simp only [List.nil_append, List.mem_append, List.mem_cons]
    rw [ih]
    constructor
    · rintro (hx | ⟨kv, hkv, hxkv⟩)
      · exact ⟨e, Or.inl rfl, hx⟩
      · exact ⟨kv, Or.inr hkv, hxkv⟩
    · rintro ⟨kv, hkv | hkv, hxkv⟩
      · exact Or.inl (hkv ▸ hxkv)
      · exact Or.inr ⟨kv, hkv, hxkv⟩

/-- Paths stored under any group key lie in the path universe. -/
lemma nodes_paths_sub_universe {db : Database} {vs : Finset String} {p : String}
    (h : p ∈ (lookupA db.nodes vs).getD []) : p ∈ pathUniverse db := by
  rcases hl : lookupA db.nodes vs with _ | l
  · rw [hl] at h
    simp at h
  · rw [hl] at h
    simp only [Option.getD_some] at h
    exact mem_pathUniverse.mpr ⟨(vs, l), lookupA_eq_some_mem hl, h⟩

/-- The probe pass appends to `queried` exactly a duplicate-free block of
fresh paths from the probed group, and appends at least one when the group
holds a not-yet-queried path. -/
lemma guessProbe_queried_spec (db : Database) (target : String → Nat × String)
    (filt : String → Bool) : ∀ (ps : List String) (cur : Finset String)
    (queried fetched : List String),
    ∃ add, (guessProbe db target filt cur ps queried fetched).2.2.1 = queried ++ add ∧
      (∀ x ∈ add, x ∈ ps ∧ x ∉ queried) ∧ add.Nodup ∧
      ((∃ p ∈ ps, p ∉ queried) → add ≠ []) := by
  intro ps
  induction ps with
  | nil =>
    intro cur queried fetched
    exact ⟨[], by simp [guessProbe]⟩
  | cons p rest ih =>
    intro cur queried fetched
    by_cases hq : p ∈ queried
    · rcases ih cur queried fetched with ⟨add, ha, hprop, hnd, hne⟩
      refine ⟨add, ?_, ?_, hnd, ?_⟩
      · simpa only [guessProbe, if_pos hq] using ha
      · exact fun x hx => ⟨List.mem_cons_of_mem _ (hprop x hx).1, (hprop x hx).2⟩
      · rintro ⟨p2, hp2, hp2q⟩
        rcases List.mem_cons.mp hp2 with hp2 | hp2
        · exact absurd (hp2 ▸ hq) hp2q
        · exact hne ⟨p2, hp2, hp2q⟩
    · have hgen : ∀ fetched2, ∃ add,
          (guessProbe db target filt cur rest (queried ++ [p]) fetched2).2.2.1
            = queried ++ (p :: add) ∧
          (∀ x ∈ p :: add, x ∈ p :: rest ∧ x ∉ queried) ∧ (p :: add).Nodup ∧
          (p :: add ≠ []) := by
        intro fetched2
        rcases ih cur (queried ++ [p]) fetched2 with ⟨add, ha, hprop, hnd, _⟩
        refine ⟨add, by simpa using ha, ?_, ?_, by simp⟩
        · intro x hx
          rcases List.mem_cons.mp hx with hx | hx
          · exact ⟨by simp [hx], hx ▸ hq⟩
          · refine ⟨List.mem_cons_of_mem _ (hprop x hx).1, ?_⟩
            intro hxq
            exact (hprop x hx).2 (by simp [hxq])
        · rw [List.nodup_cons]
          refine ⟨?_, hnd⟩
          intro hpadd
          exact (hprop p hpadd).2 (by simp)
      by_cases hf : filt p = true
      · by_cases hs : (target p).1 = 200
        · rcases hl : lookupA db.fingerprints (content_hash p (target p).2) with _ | vset
          · rcases hgen (fetched ++ [p]) with ⟨add, ha, hprop, hnd, hne⟩
            refine ⟨p :: add, ?_, hprop, hnd, fun _ => by simp⟩
            simpa only [guessProbe, if_neg hq, if_pos hf, if_pos hs, hl] using ha
          · refine ⟨[p], ?_, ?_, by simp, fun _ => by simp⟩
            · simp only [guessProbe, if_neg hq, if_pos hf, if_pos hs, hl]
            · intro x hx
              rcases List.mem_cons.mp hx with hx | hx
              · exact ⟨by simp [hx], hx ▸ hq⟩
              · simp at hx
        · rcases hgen (fetched ++ [p]) with ⟨add, ha, hprop, hnd, hne⟩
          refine ⟨p :: add, ?_, hprop, hnd, fun _ => by simp⟩
          simpa only [guessProbe, if_neg hq, if_pos hf, if_neg hs] using ha
      · rcases hgen fetched with ⟨add, ha, hprop, hnd, hne⟩
        refine ⟨p :: add, ?_, hprop, hnd, fun _ => by simp⟩
        simpa only [guessProbe, if_neg hq, if_neg hf] using ha

/-- The narrowing loop reaches its natural stop within fuel bounded by the
path universe: every recursing iteration marks at least one new universe
path as queried. -/
lemma guessGo_isSome (db : Database) (target : String → Nat × String) (filt : String → Bool) :
    ∀ (n : Nat) (cur : Finset String) (prev : Option (Finset String))
      (queried fetched : List String),
      queried.Nodup → (∀ p ∈ queried, p ∈ pathUniverse db) →
      (pathUniverse db).length + 1 ≤ n + queried.length →
      (guessGo db target filt n cur prev queried fetched).isSome := by
  intro n
  induction n with
  | zero =>
    intro cur prev queried fetched hnd hsub hlen
    exfalso
    have h2 : queried.toFinset.card = queried.length := List.toFinset_card_of_nodup hnd
    have h3 : queried.toFinset ⊆ (pathUniverse db).toFinset :=
      fun x hx => List.mem_toFinset.mpr (hsub x (List.mem_toFinset.mp hx))
    have h4 := Finset.card_le_card h3
    have h5 := (pathUniverse db).toFinset_card_le
    omega
  | succ n ih =>
    intro cur prev queried fetched hnd hsub hlen
    by_cases hc : cur.card ≤ 1
    · simp [guessGo, hc]
    · cases hpick : pickMin (score cur) (validKeys db cur queried) with
      | none => simp [guessGo, hc, hpick]
      | some best =>
        rcases hp : guessProbe db target filt cur ((lookupA db.nodes best).getD [])
          queried fetched with ⟨cur2, narrowed, q2, f2⟩
        simp only [guessGo, if_neg hc, hpick, hp]
        have hmem : best ∈ validKeys db cur queried := pickMin_mem _ _ _ hpick
        have hex : ∃ p ∈ (lookupA db.nodes best).getD [], p ∉ queried :=
          validKeys_not_subset hmem
        rcases guessProbe_queried_spec db target filt ((lookupA db.nodes best).getD [])
          cur queried fetched with ⟨add, ha, hprop, hndadd, hne⟩
        rw [hp] at ha
        simp only at ha
        have haddne : add ≠ [] := hne hex
        apply ih cur2 _ q2 f2
        · rw [ha]
          rw [List.nodup_append]
          refine ⟨hnd, hndadd, ?_⟩
          intro x hx hxa
          exact (hprop x hxa).2 hx
        · intro x hx
          rw [ha] at hx
          rcases List.mem_append.mp hx with hx | hx
          · exact hsub x hx
          · exact nodes_paths_sub_universe (hprop x hx).1
        · have : 1 ≤ add.length := by
            rcases add with _ | ⟨y, ys⟩
            · exact absurd rfl haddne
            · simp
          have hq2len : q2.length = queried.length + add.length := by
            rw [ha, List.length_append]
          omega

/-- C10: `guess` terminates for every database, fetcher behaviour and path
filter — the fuel `|pathUniverse| + 1` is never exhausted, because each
iteration of the outer loop selects a group whose path set is not
contained in `queried` and marks at least one new path queried before any
filter or fetch is consulted, so `queried` grows strictly inside the
finite path universe. -/
theorem guess_terminates : ∀ (db : Database) (target : String → Nat × String)
    (filt : String → Bool), (guess db target filt).isSome := by
  intro db target filt
  apply guessGo_isSome db target filt ((pathUniverse db).length + 1) db.versions none [] []
  · exact List.nodup_nil
  · simp
  · simp

/-- `insertNew` never produces the empty list. -/
lemma insertNew_ne_nil {α : Type} [DecidableEq α] (x : α) (l : List α) : insertNew x l ≠ [] := by
  by_cases h : x ∈ l
  · simp only [insertNew, if_pos h]
    intro he
    rw [he] at h
    simp at h
  · simp [insertNew, h]

/-- Entries of an `upsert` are old entries or carry the updated value. -/
lemma mem_upsert_cases {α β : Type} [DecidableEq α] :
    ∀ (m : List (α × β)) (k : α) (f : Option β → β) (e : α × β),
      e ∈ upsert k f m → e ∈ m ∨ ∃ o, e = (k, f o) := by
  intro m
  induction m with
  | nil =>
    intro k f e he
    simp only [upsert, List.mem_singleton] at he
    exact Or.inr ⟨none, he⟩
  | cons a t ih =>
    obtain ⟨a1, a2⟩ := a
    intro k f e he
    by_cases h : a1 = k
    · simp only [upsert, if_pos h] at he
      rcases List.mem_cons.mp he with he | he
      · exact Or.inr ⟨some a2, by rw [he, h]⟩
      · exact Or.inl (List.mem_cons_of_mem _ he)
    · simp only [upsert, if_neg h] at he
      rcases List.mem_cons.mp he with he | he
      · exact Or.inl (by simp [he])
      · rcases ih k f e he with hm | hm
        · exact Or.inl (List.mem_cons_of_mem _ hm)
        · exact Or.inr hm

/-- Characterization of group membership produced by regrouping: a path
`p` lies in the group keyed `vs` iff the accumulator already had it there
or the path map contains the entry `(p, vs)`. -/
lemma regroupAux_memval : ∀ (m : List (String × Finset String))
    (nd : List (Finset String × List String)) (vs : Finset String) (p : String),
    MemVal (regroupAux m nd) vs p ↔ MemVal nd vs p ∨ (p, vs) ∈ m := by
  intro m
  induction m with
  | nil =>
    intro nd vs p
    simp [regroupAux]
  | cons e rest ih =>
    obtain ⟨p0, vs0⟩ := e
    intro nd vs p
    simp only [regroupAux]
    rw [ih]
    have step : MemVal (upsert vs0 (fun o => insertNew p0 (o.getD [])) nd) vs p ↔
        MemVal nd vs p ∨ (vs = vs0 ∧ p = p0) := by
      unfold MemVal
      rw [lookupA_upsert]
      by_cases hv : vs = vs0
      · subst hv
        simp only [if_pos rfl]
        constructor
        · rintro ⟨l, hl, hpl⟩
          injection hl with hl
          rw [← hl, mem_insertNew] at hpl
          rcases hpl with hp | hp
          · exact Or.inr ⟨by trivial, hp⟩
          · left
            rcases hlook : lookupA nd vs with _ | l2
            · rw [hlook] at hp
              simp at hp
            · rw [hlook] at hp
              exact ⟨l2, rfl, by simpa using hp⟩
        · rintro (⟨l, hl, hpl⟩ | ⟨_, hp⟩)
          · refine ⟨insertNew p0 ((lookupA nd vs).getD []), rfl, ?_⟩
            rw [mem_insertNew]
            right
            rw [hl]
            simpa using hpl
          · refine ⟨insertNew p0 ((lookupA nd vs).getD []), rfl, ?_⟩
            rw [mem_insertNew]
            exact Or.inl hp
      · simp only [if_neg hv]
        constructor
        · rintro ⟨l, hl, hpl⟩
          exact Or.inl ⟨l, hl, hpl⟩
        · rintro (⟨l, hl, hpl⟩ | ⟨hvv, _⟩)
          · exact ⟨l, hl, hpl⟩
          · exact absurd hvv hv
    rw [step]
    simp only [List.mem_cons, Prod.mk.injEq]
    tauto

/-- A key appears in the regrouped map iff it appeared before or some path
maps to it. -/
lemma regroupAux_isSome : ∀ (m : List (String × Finset String))
    (nd : List (Finset String × List String)) (vs : Finset String),
    (lookupA (regroupAux m nd) vs).isSome ↔
      (lookupA nd vs).isSome ∨ ∃ p, (p, vs) ∈ m := by
  intro m
  induction m with
  | nil =>
    intro nd vs
    simp [regroupAux]
  | cons e rest ih =>
    obtain ⟨p0, vs0⟩ := e
    intro nd vs
    simp only [regroupAux]
    rw [ih]
    have step : (lookupA (upsert vs0 (fun o => insertNew p0 (o.getD [])) nd) vs).isSome ↔
        (lookupA nd vs).isSome ∨ vs = vs0 := by
      rw [lookupA_upsert]
      by_cases hv : vs = vs0
      · simp [hv]
      · simp [hv]
    rw [step]
    constructor
    · rintro ((h | h) | ⟨p, hp⟩)
      · exact Or.inl h
      · exact Or.inr ⟨p0, by simp [h]⟩
      · exact Or.inr ⟨p, by simp [hp]⟩
    · rintro (h | ⟨p, hp⟩)
      · exact Or.inl (Or.inl h)
      · rcases List.mem_cons.mp hp with hp | hp
        · obtain ⟨h1, h2⟩ := Prod.mk.injEq .. ▸ hp
          exact Or.inl (Or.inr h2)
        · exact Or.inr ⟨p, hp⟩

/-- Regrouping preserves key uniqueness of the accumulator. -/
lemma regroupAux_keys_nodup : ∀ (m : List (String × Finset String))
    (nd : List (Finset String × List String)),
    (keysOf nd).Nodup → (keysOf (regroupAux m nd)).Nodup := by
  intro m
  induction m with
  | nil => exact fun nd h => h
  | cons e rest ih =>
    obtain ⟨p0, vs0⟩ := e
    intro nd h
    exact ih _ (nodup_keysOf_upsert _ _ h)

/-- Regrouped groups are never empty. -/
lemma regroupAux_vals_ne_nil : ∀ (m : List (String × Finset String))
    (nd : List (Finset String × List String)),
    (∀ e ∈ nd, e.2 ≠ []) → ∀ e ∈ regroupAux m nd, e.2 ≠ [] := by
  intro m
  induction m with
  | nil => exact fun nd h => h
  | cons e0 rest ih =>
    obtain ⟨p0, vs0⟩ := e0
    intro nd h
    apply ih
    intro e he
    rcases mem_upsert_cases nd vs0 _ e he with hm | ⟨o, hm⟩
    · exact h e hm
    · rw [hm]
      exact insertNew_ne_nil _ _

/-- Folding one group's paths into the path map: each listed path gains
the group's version set, other paths are untouched. -/
lemma addPaths_lookup : ∀ (ps : List String) (vs : Finset String)
    (acc : List (String × Finset String)) (q : String),
    lookupA (addPaths vs ps acc) q =
      if q ∈ ps then some ((lookupA acc q).getD ∅ ∪ vs) else lookupA acc q := by
  intro ps
  induction ps with
  | nil =>
    intro vs acc q
    simp [addPaths]
  | cons p rest ih =>
    intro vs acc q
    simp only [addPaths]
    rw [ih]
    by_cases hq : q ∈ rest
    · rw [if_pos hq, if_pos (List.mem_cons_of_mem _ hq), lookupA_upsert]
      by_cases hqp : q = p
      · subst hqp
        simp [Finset.union_assoc, Finset.union_self]
      · rw [if_neg hqp]
    · rw [if_neg hq, lookupA_upsert]
      by_cases hqp : q = p
      · subst hqp
        rw [if_pos rfl, if_pos (List.mem_cons_self _ _)]
      · rw [if_neg hqp, if_neg (by simp [hqp, hq])]

/-- `addPaths` preserves key uniqueness. -/
lemma addPaths_keys_nodup : ∀ (ps : List String) (vs : Finset String)
    (acc : List (String × Finset String)),
    (keysOf acc).Nodup → (keysOf (addPaths vs ps acc)).Nodup := by
  intro ps
  induction ps with
  | nil => exact fun vs acc h => h
  | cons p rest ih =>
    intro vs acc h
    exact ih vs _ (nodup_keysOf_upsert _ _ h)

/-- Expansion leaves paths that occur in no group untouched. -/
lemma expandAux_lookup_none : ∀ (nodes : List (Finset String × List String))
    (acc : List (String × Finset String)) (q : String),
    (∀ e ∈ nodes, q ∉ e.2) → lookupA (expandAux nodes acc) q = lookupA acc q := by
  intro nodes
  induction nodes with
  | nil => intro acc q _; rfl
  | cons e rest ih =>
    intro acc q hnot
    simp only [expandAux]
    rw [ih _ _ (fun e2 he2 => hnot e2 (List.mem_cons_of_mem _ he2))]
    rw [addPaths_lookup]
    rw [if_neg (hnot e (List.mem_cons_self _ _))]

/-- Expansion of groups that all carry the same key `S` for a path `q`
gives `q` exactly the value `S` joined onto whatever the accumulator had. -/
lemma expandAux_lookup_same : ∀ (nodes : List (Finset String × List String))
    (acc : List (String × Finset String)) (q : String) (S : Finset String),
    (∃ e ∈ nodes, q ∈ e.2) → (∀ e ∈ nodes, q ∈ e.2 → e.1 = S) →
    lookupA (expandAux nodes acc) q = some ((lookupA acc q).getD ∅ ∪ S) := by
  intro nodes
  induction nodes with
  | nil =>
    intro acc q S hex _
    simp at hex
  | cons e rest ih =>
    intro acc q S hex hsame
    simp only [expandAux]
    by_cases hqe : q ∈ e.2
    · have heS : e.1 = S := hsame e (List.mem_cons_self _ _) hqe
      have hacc2 : lookupA (addPaths e.1 e.2 acc) q = some ((lookupA acc q).getD ∅ ∪ S) := by
        rw [addPaths_lookup, if_pos hqe, heS]
      by_cases hrest : ∃ e2 ∈ rest, q ∈ e2.2
      · rw [ih _ _ S hrest (fun e2 he2 => hsame e2 (List.mem_cons_of_mem _ he2))]
        rw [hacc2]
        simp only [Option.getD_some]
        rw [Finset.union_assoc, Finset.union_self]
      · rw [expandAux_lookup_none rest _ q (by push_neg at hrest; exact hrest)]
        exact hacc2
    · have hex2 : ∃ e2 ∈ rest, q ∈ e2.2 := by
        rcases hex with ⟨e2, he2, hqe2⟩
        rcases List.mem_cons.mp he2 with he2 | he2
        · exact absurd (he2 ▸ hqe2) hqe
        · exact ⟨e2, he2, hqe2⟩
      rw [ih _ _ S hex2 (fun e2 he2 => hsame e2 (List.mem_cons_of_mem _ he2))]
      rw [addPaths_lookup, if_neg hqe]

/-- `expandAux` preserves key uniqueness. -/
lemma expandAux_keys_nodup : ∀ (nodes : List (Finset String × List String))
    (acc : List (String × Finset String)),
    (keysOf acc).Nodup → (keysOf (expandAux nodes acc)).Nodup := by
  intro nodes
  induction nodes with
  | nil => exact fun acc h => h
  | cons e rest ih =>
    intro acc h
    exact ih _ (addPaths_keys_nodup e.2 e.1 acc h)

/-- Round trip: expanding the regrouped path map recovers exactly the
original path → version-set mapping (pointwise, for a map with unique
path keys). -/
lemma expand_regroup_lookup (m : List (String × Finset String))
    (hm : (keysOf m).Nodup) (q : String) :
    lookupA (expandPaths (regroup m)) q = lookupA m q := by
  have hnodupR : (keysOf (regroup m)).Nodup := regroupAux_keys_nodup m [] (by simp [keysOf])
  rcases hq : lookupA m q with _ | S
  · apply expandAux_lookup_none
    rintro ⟨vs, l⟩ he hql
    have hlook : lookupA (regroup m) vs = some l := lookupA_of_mem_nodup hnodupR he
    have hmv : MemVal (regroup m) vs q := ⟨l, hlook, hql⟩
    have : (q, vs) ∈ m := by
      have h2 := (regroupAux_memval m [] vs q).mp hmv
      rcases h2 with h2 | h2
      · rcases h2 with ⟨l2, hl2, _⟩
        simp [lookupA] at hl2
      · exact h2
    have := isSome_of_mem this
    rw [hq] at this
    simp at this
  · have hmem : (q, S) ∈ m := lookupA_eq_some_mem hq
    have hmv : MemVal (regroup m) S q := by
      apply (regroupAux_memval m [] S q).mpr
      exact Or.inr hmem
    rcases hmv with ⟨l, hlook, hql⟩
    have hex : ∃ e ∈ regroup m, q ∈ e.2 := ⟨(S, l), lookupA_eq_some_mem hlook, hql⟩
    have hsame : ∀ e ∈ regroup m, q ∈ e.2 → e.1 = S := by
      rintro ⟨vs, l2⟩ he hql2
      have hlook2 : lookupA (regroup m) vs = some l2 := lookupA_of_mem_nodup hnodupR he
      have hmv2 : MemVal (regroup m) vs q := ⟨l2, hlook2, hql2⟩
      have hqm : (q, vs) ∈ m := by
        rcases (regroupAux_memval m [] vs q).mp hmv2 with h2 | h2
        · rcases h2 with ⟨l3, hl3, _⟩
          simp [lookupA] at hl3
        · exact h2
      have := lookupA_of_mem_nodup hm hqm
      rw [hq] at this
      exact (Option.some.inj this).symm
    show lookupA (expandAux (regroup m) []) q = some S
    rw [expandAux_lookup_same (regroup m) [] q S hex hsame]
    simp [lookupA]

/-- Ingesting an archive preserves path-key uniqueness. -/
lemma ingestFiles_keys_nodup (v : String) (skip : Nat) :
    ∀ (files : List (String × String)) (fps : List (Nat × Finset String))
      (paths : List (String × Finset String)),
      (keysOf paths).Nodup → (keysOf (ingestFiles v skip files fps paths).2).Nodup := by
  intro files
  induction files with
  | nil => exact fun fps paths h => h
  | cons f rest ih =>
    obtain ⟨p, c⟩ := f
    intro fps paths h
    exact ih _ _ (nodup_keysOf_upsert _ _ h)

/-- The archive loop preserves path-key uniqueness. -/
lemma genFold_keys_nodup (known : Finset String) (skip : Nat) :
    ∀ (corpus : List (String × List (String × String)))
      (acc : List (Nat × Finset String) × List (String × Finset String)),
      (keysOf acc.2).Nodup → (keysOf (genFold known skip corpus acc).2).Nodup := by
  intro corpus
  induction corpus with
  | nil => exact fun acc h => h
  | cons a rest ih =>
    intro acc h
    simp only [genFold]
    by_cases hk : a.1 ∈ known
    · rw [if_pos hk]
      exact ih acc h
    · rw [if_neg hk]
      exact ih _ (ingestFiles_keys_nodup a.1 skip a.2 acc.1 acc.2 h)

/-- Ingestion only grows the version set stored under any path key. -/
lemma ingestFiles_path_mono (v : String) (skip : Nat) :
    ∀ (files : List (String × String)) (fps : List (Nat × Finset String))
      (paths : List (String × Finset String)) (k : String) (S : Finset String),
      lookupA paths k = some S →
      ∃ S2, lookupA (ingestFiles v skip files fps paths).2 k = some S2 ∧ S ⊆ S2 := by
  intro files
  induction files with
  | nil =>
    intro fps paths k S h
    exact ⟨S, h, Finset.Subset.refl S⟩
  | cons f rest ih =>
    obtain ⟨p, c⟩ := f
    intro fps paths k S h
    simp only [ingestFiles]
    by_cases hk : k = stripPath skip p
    · have h2 : lookupA (upsert (stripPath skip p) (addVersion v) paths) k
          = some (insert v S) := by
        rw [lookupA_upsert, if_pos hk, ← hk, h]
        rfl
      rcases ih _ _ k (insert v S) h2 with ⟨S2, hS2, hsub⟩
      exact ⟨S2, hS2, fun x hx => hsub (Finset.mem_insert_of_mem hx)⟩
    · have h2 : lookupA (upsert (stripPath skip p) (addVersion v) paths) k = some S := by
        rw [lookupA_upsert, if_neg hk, h]
      exact ih _ _ k S h2

/-- Ingesting an archive records its own version under each of its
stripped paths. -/
lemma ingestFiles_self_mem (v : String) (skip : Nat) :
    ∀ (files : List (String × String)) (fps : List (Nat × Finset String))
      (paths : List (String × Finset String)) (p : String) (c : String),
      (p, c) ∈ files →
      ∃ S, lookupA (ingestFiles v skip files fps paths).2 (stripPath skip p) = some S ∧
        v ∈ S := by
  intro files
  induction files with
  | nil =>
    intro fps paths p c h
    simp at h
  | cons f rest ih =>
    obtain ⟨p0, c0⟩ := f
    intro fps paths p c h
    rcases List.mem_cons.mp h with h1 | h1
    · obtain ⟨hp, hc⟩ := Prod.mk.injEq .. ▸ h1
      subst hp
      simp only [ingestFiles]
      have h2 : lookupA (upsert (stripPath skip p) (addVersion v) paths) (stripPath skip p)
          = some (insert v (((lookupA paths (stripPath skip p))).getD ∅)) := by
        rw [lookupA_upsert, if_pos rfl]
        rfl
      rcases ingestFiles_path_mono v skip rest _ _ _ _ h2 with ⟨S2, hS2, hsub⟩
      exact ⟨S2, hS2, hsub (Finset.mem_insert_self v _)⟩
    · simp only [ingestFiles]
      exact ih _ _ p c h1

/-- The archive loop only grows the version set stored under any path
key. -/
lemma genFold_path_mono (known : Finset String) (skip : Nat) :
    ∀ (corpus : List (String × List (String × String)))
      (acc : List (Nat × Finset String) × List (String × Finset String))
      (k : String) (S : Finset String),
      lookupA acc.2 k = some S →
      ∃ S2, lookupA (genFold known skip corpus acc).2 k = some S2 ∧ S ⊆ S2 := by
  intro corpus
  induction corpus with
  | nil =>
    intro acc k S h
    exact ⟨S, h, Finset.Subset.refl S⟩
  | cons a rest ih =>
    intro acc k S h
    simp only [genFold]
    by_cases hk : a.1 ∈ known
    · rw [if_pos hk]
      exact ih acc k S h
    · rw [if_neg hk]
      rcases ingestFiles_path_mono a.1 skip a.2 acc.1 acc.2 k S h with ⟨S2, hS2, hsub⟩
      rcases ih _ k S2 hS2 with ⟨S3, hS3, hsub2⟩
      exact ⟨S3, hS3, fun x hx => hsub2 (hsub hx)⟩

/-- Every archive of the corpus that is not skipped ends up recorded, with
its version, under each of its stripped paths. -/
lemma genFold_version_mem (known : Finset String) (skip : Nat) :
    ∀ (corpus : List (String × List (String × String)))
      (acc : List (Nat × Finset String) × List (String × Finset String))
      (a : String × List (String × String)) (p c : String),
      a ∈ corpus → (p, c) ∈ a.2 → (∀ b, b ∈ corpus → b.1 ∉ known) →
      ∃ S, lookupA (genFold known skip corpus acc).2 (stripPath skip p) = some S ∧
        a.1 ∈ S := by
  intro corpus
  induction corpus with
  | nil =>
    intro acc a p c ha _ _
    simp at ha
  | cons a0 rest ih =>
    intro acc a p c ha hpc hnk
    simp only [genFold, if_neg (hnk a0 (List.mem_cons_self _ _))]
    rcases List.mem_cons.mp ha with ha1 | ha1
    · subst ha1
      rcases ingestFiles_self_mem a.1 skip a.2 acc.1 acc.2 p c hpc with ⟨S, hS, hv⟩
      rcases genFold_path_mono known skip rest _ _ _ hS with ⟨S2, hS2, hsub⟩
      exact ⟨S2, hS2, hsub hv⟩
    · exact ih _ a p c ha1 hpc (fun b hb => hnk b (List.mem_cons_of_mem _ hb))

/-- When every corpus archive is either already known or empty, the
archive loop is the identity. -/
lemma genFold_skip_all (known : Finset String) (skip : Nat) :
    ∀ (corpus : List (String × List (String × String)))
      (acc : List (Nat × Finset String) × List (String × Finset String)),
      (∀ a ∈ corpus, a.1 ∈ known ∨ a.2 = []) → genFold known skip corpus acc = acc := by
  intro corpus
  induction corpus with
  | nil => exact fun acc _ => rfl
  | cons a rest ih =>
    intro acc h
    simp only [genFold]
    rcases h a (List.mem_cons_self _ _) with hk | hk
    · rw [if_pos hk]
      exact ih acc (fun b hb => h b (List.mem_cons_of_mem _ hb))
    · by_cases hk2 : a.1 ∈ known
      · rw [if_pos hk2]
        exact ih acc (fun b hb => h b (List.mem_cons_of_mem _ hb))
      · rw [if_neg hk2, hk]
        exact ih acc (fun b hb => h b (List.mem_cons_of_mem _ hb))

/-- A version recorded under some path key is in the derived version set
of the regrouped database. -/
lemma mem_versions_of_paths (fps : List (Nat × Finset String))
    (paths1 : List (String × Finset String)) (q v : String) (S : Finset String)
    (hl : lookupA paths1 q = some S) (hv : v ∈ S) :
    v ∈ (Database.mk fps (regroup paths1)).versions := by
  have hks : (lookupA (regroup paths1) S).isSome := by
    apply (regroupAux_isSome paths1 [] S).mpr
    exact Or.inr ⟨q, lookupA_eq_some_mem hl⟩
  have hmem : S ∈ keysOf (regroup paths1) := (mem_keysOf_iff_isSome _ S).mpr hks
  exact mem_unionL.mpr ⟨S, hmem, hv⟩

/-- Regrouping the expansion of a regrouped path map yields a
content-equal group map (the full-rebuild step of `generate` is stable). -/
lemma regroup_expand_regroup_equiv (m : List (String × Finset String))
    (hm : (keysOf m).Nodup) :
    NodesEquiv (regroup (expandPaths (regroup m))) (regroup m) := by
  have hMeq : ∀ q, lookupA (expandPaths (regroup m)) q = lookupA m q :=
    expand_regroup_lookup m hm
  have hM2nodup : (keysOf (expandPaths (regroup m))).Nodup :=
    expandAux_keys_nodup _ [] (by simp [keysOf])
  have hmemiff : ∀ p vs, (p, vs) ∈ expandPaths (regroup m) ↔ (p, vs) ∈ m := by
    intro p vs
    constructor
    · intro h
      have h2 := lookupA_of_mem_nodup hM2nodup h
      rw [hMeq p] at h2
      exact lookupA_eq_some_mem h2
    · intro h
      have h2 := lookupA_of_mem_nodup hm h
      rw [← hMeq p] at h2
      exact lookupA_eq_some_mem h2
  constructor
  · intro vs
    simp only [regroup]
    rw [regroupAux_isSome _ [] vs, regroupAux_isSome _ [] vs]
    have hnone : (lookupA ([] : List (Finset String × List String)) vs).isSome = false := rfl
    rw [hnone]
    simp only [Bool.false_eq_true, false_or]
    exact exists_congr (fun p => hmemiff p vs)
  · intro vs p
    simp only [regroup]
    rw [regroupAux_memval _ [] vs p, regroupAux_memval _ [] vs p]
    have hnil : ¬ MemVal [] vs p := by
      rintro ⟨l, hl, _⟩
      simp [lookupA] at hl
    constructor
    · rintro (h | h)
      · exact absurd h hnil
      · exact Or.inr ((hmemiff p vs).mp h)
    · rintro (h | h)
      · exact absurd h hnil
      · exact Or.inr ((hmemiff p vs).mpr h)

/-- C8: ingesting the same corpus a second time into the database produced
by a first ingestion (from an empty database) leaves the fingerprints map
literally unchanged and produces a content-equal groups map: every
version that ingested at least one file is found in `versions` and
skipped entirely, versions whose archives held no regular files have no
side effects to repeat, and the full group rebuild is stable. -/
theorem generate_idempotent : ∀ (corpus : List (String × List (String × String))) (skip : Nat),
    (Database.generate (Database.generate ⟨[], []⟩ corpus skip) corpus skip).fingerprints
      = (Database.generate ⟨[], []⟩ corpus skip).fingerprints ∧
    NodesEquiv (Database.generate (Database.generate ⟨[], []⟩ corpus skip) corpus skip).nodes
      (Database.generate ⟨[], []⟩ corpus skip).nodes := by
  intro corpus skip
  have hK : ∀ b, b ∈ corpus → b.1 ∉ (Database.mk [] [] : Database).versions := by
    intro b _ hb
    rw [show (Database.mk [] [] : Database).versions = ∅ from rfl] at hb
    exact Finset.not_mem_empty _ hb
  have hnodup1 : (keysOf (genFold (Database.mk [] [] : Database).versions skip corpus
      ((Database.mk [] [] : Database).fingerprints,
        expandPaths (Database.mk [] [] : Database).nodes)).2).Nodup := by
    apply genFold_keys_nodup
    simp [keysOf, expandPaths, expandAux]
  have hskip : ∀ a ∈ corpus,
      a.1 ∈ (Database.generate ⟨[], []⟩ corpus skip).versions ∨ a.2 = [] := by
    intro a ha
    rcases ha2 : a.2 with _ | ⟨f, fs⟩
    · exact Or.inr rfl
    · left
      obtain ⟨p, c⟩ := f
      have hpc : (p, c) ∈ a.2 := by
        rw [ha2]
        exact List.mem_cons_self _ _
      rcases genFold_version_mem (Database.mk [] [] : Database).versions skip corpus
        ((Database.mk [] [] : Database).fingerprints,
          expandPaths (Database.mk [] [] : Database).nodes) a p c ha hpc hK with ⟨S, hS, hv⟩
      exact mem_versions_of_paths _ _ _ _ _ hS hv
  have h2 : genFold (Database.generate ⟨[], []⟩ corpus skip).versions skip corpus
      ((Database.generate ⟨[], []⟩ corpus skip).fingerprints,
        expandPaths (Database.generate ⟨[], []⟩ corpus skip).nodes)
      = ((Database.generate ⟨[], []⟩ corpus skip).fingerprints,
        expandPaths (Database.generate ⟨[], []⟩ corpus skip).nodes) :=
    genFold_skip_all _ skip corpus _ hskip
  constructor
  · show (genFold (Database.generate ⟨[], []⟩ corpus skip).versions skip corpus
      ((Database.generate ⟨[], []⟩ corpus skip).fingerprints,
        expandPaths (Database.generate ⟨[], []⟩ corpus skip).nodes)).1 = _
    rw [h2]
  · show NodesEquiv (regroup (genFold (Database.generate ⟨[], []⟩ corpus skip).versions skip
      corpus ((Database.generate ⟨[], []⟩ corpus skip).fingerprints,
        expandPaths (Database.generate ⟨[], []⟩ corpus skip).nodes)).2)
      (Database.generate ⟨[], []⟩ corpus skip).nodes
    rw [h2]
    exact regroup_expand_regroup_equiv _ hnodup1

/-- Path-map effect of ingesting one archive: every stripped path of the
archive gains the archive's version, all other keys are untouched. -/
lemma ingestFiles_lookup_paths (v : String) (skip : Nat) :
    ∀ (files : List (String × String)) (fps : List (Nat × Finset String))
      (paths : List (String × Finset String)) (q : String),
      lookupA (ingestFiles v skip files fps paths).2 q =
        if ∃ f ∈ files, stripPath skip f.1 = q
        then some (insert v ((lookupA paths q).getD ∅))
        else lookupA paths q := by
  intro files
  induction files with
  | nil =>
    intro fps paths q
    simp [ingestFiles]
  | cons f rest ih =>
    obtain ⟨p, c⟩ := f
    intro fps paths q
    simp only [ingestFiles]
    rw [ih]
    by_cases hm : stripPath skip p = q
    · have hlp : lookupA (upsert (stripPath skip p) (addVersion v) paths) q
          = some (insert v ((lookupA paths q).getD ∅)) := by
        rw [lookupA_upsert, if_pos hm.symm, hm]
        rfl
      have hcond : ∃ f ∈ (p, c) :: rest, stripPath skip f.1 = q :=
        ⟨(p, c), List.mem_cons_self _ _, hm⟩
      rw [if_pos hcond]
      by_cases hrest : ∃ f ∈ rest, stripPath skip f.1 = q
      · rw [if_pos hrest, hlp]
        simp only [Option.getD_some]
        rw [Finset.insert_idem]
      · rw [if_neg hrest, hlp]
    · have hlp : lookupA (upsert (stripPath skip p) (addVersion v) paths) q
          = lookupA paths q := by
        rw [lookupA_upsert, if_neg (fun h => hm h.symm)]
      have hcond : (∃ f ∈ (p, c) :: rest, stripPath skip f.1 = q) ↔
          (∃ f ∈ rest, stripPath skip f.1 = q) := by
        constructor
        · rintro ⟨f, hf, hfs⟩
          rcases List.mem_cons.mp hf with hf | hf
          · rw [hf] at hfs
            exact absurd hfs hm
          · exact ⟨f, hf, hfs⟩
        · rintro ⟨f, hf, hfs⟩
          exact ⟨f, List.mem_cons_of_mem _ hf, hfs⟩
      by_cases hrest : ∃ f ∈ rest, stripPath skip f.1 = q
      · rw [if_pos hrest, if_pos (hcond.mpr hrest), hlp]
      · rw [if_neg hrest, if_neg (fun h => hrest (hcond.mp h)), hlp]

/-- Path-map value accumulated by the archive loop, as a fold over the
corpus. -/
lemma genFold_lookup_owner (skip : Nat) :
    ∀ (corpus : List (String × List (String × String))) (known : Finset String)
      (acc : List (Nat × Finset String) × List (String × Finset String)) (q : String),
      (∀ a ∈ corpus, a.1 ∉ known) →
      lookupA (genFold known skip corpus acc).2 q =
        corpus.foldl (fun o a => if ∃ f ∈ a.2, stripPath skip f.1 = q
          then some (insert a.1 (o.getD ∅)) else o) (lookupA acc.2 q) := by
  intro corpus
  induction corpus with
  | nil =>
    intro known acc q _
    rfl
  | cons a rest ih =>
    intro known acc q hnk
    simp only [genFold, if_neg (hnk a (List.mem_cons_self _ _)), List.foldl_cons]
    rw [ih known _ q (fun b hb => hnk b (List.mem_cons_of_mem _ hb))]
    rw [ingestFiles_lookup_paths]

/-- Folding owner accumulation from a present set stays present. -/
lemma foldl_owner_some (skip : Nat) (q : String) :
    ∀ (corpus : List (String × List (String × String))) (S : Finset String),
      corpus.foldl (fun o a => if ∃ f ∈ a.2, stripPath skip f.1 = q
          then some (insert a.1 (o.getD ∅)) else o) (some S)
        = some (corpus.foldl (fun s a => if ∃ f ∈ a.2, stripPath skip f.1 = q
          then insert a.1 s else s) S) := by
  intro corpus
  induction corpus with
  | nil => intro S; rfl
  | cons a rest ih =>
    intro S
    simp only [List.foldl_cons]
    by_cases hc : ∃ f ∈ a.2, stripPath skip f.1 = q
    · rw [if_pos hc, if_pos hc]
      simpa using ih (insert a.1 S)
    · rw [if_neg hc, if_neg hc]
      exact ih S

/-- An ingested path's accumulated owner fold produces exactly `owners`. -/
lemma foldl_owner_none_pos (skip : Nat) (q : String) :
    ∀ (corpus : List (String × List (String × String))),
      ingested corpus skip q →
      corpus.foldl (fun o a => if ∃ f ∈ a.2, stripPath skip f.1 = q
          then some (insert a.1 (o.getD ∅)) else o) none
        = some (owners corpus skip q) := by
  intro corpus
  induction corpus with
  | nil =>
    intro h
    rcases h with ⟨a, ha, _⟩
    simp at ha
  | cons a rest ih =>
    intro h
    simp only [List.foldl_cons, owners]
    by_cases hc : ∃ f ∈ a.2, stripPath skip f.1 = q
    · rw [if_pos hc, if_pos hc]
      exact foldl_owner_some skip q rest (insert a.1 ∅)
    · rw [if_neg hc, if_neg hc]
      apply ih
      rcases h with ⟨b, hb, hf⟩
      rcases List.mem_cons.mp hb with hb | hb
      · exact absurd (hb ▸ hf) hc
      · exact ⟨b, hb, hf⟩

/-- A never-ingested path stays absent from the accumulated path map. -/
lemma foldl_owner_none_neg (skip : Nat) (q : String) :
    ∀ (corpus : List (String × List (String × String))),
      ¬ ingested corpus skip q →
      corpus.foldl (fun o a => if ∃ f ∈ a.2, stripPath skip f.1 = q
          then some (insert a.1 (o.getD ∅)) else o) (none : Option (Finset String))
        = none := by
  intro corpus
  induction corpus with
  | nil => intro _; rfl
  | cons a rest ih =>
    intro h
    simp only [List.foldl_cons]
    by_cases hc : ∃ f ∈ a.2, stripPath skip f.1 = q
    · exact absurd ⟨a, List.mem_cons_self _ _, hc⟩ h
    · rw [if_neg hc]
      apply ih
      intro h2
      rcases h2 with ⟨b, hb, hf⟩
      exact h ⟨b, List.mem_cons_of_mem _ hb, hf⟩

/-- The path map accumulated by generating from an empty database maps
each ingested (stripped) path to exactly its owning versions set, and no
other path to anything. -/
lemma generate_paths_char (corpus : List (String × List (String × String))) (skip : Nat)
    (q : String) :
    (ingested corpus skip q →
      lookupA (genFold (Database.mk [] [] : Database).versions skip corpus
        ((Database.mk [] [] : Database).fingerprints,
          expandPaths (Database.mk [] [] : Database).nodes)).2 q
        = some (owners corpus skip q)) ∧
    (¬ ingested corpus skip q →
      lookupA (genFold (Database.mk [] [] : Database).versions skip corpus
        ((Database.mk [] [] : Database).fingerprints,
          expandPaths (Database.mk [] [] : Database).nodes)).2 q = none) := by
  have hnk : ∀ a ∈ corpus, a.1 ∉ (Database.mk [] [] : Database).versions := by
    intro a _ hb
    rw [show (Database.mk [] [] : Database).versions = ∅ from rfl] at hb
    exact Finset.not_mem_empty _ hb
  have hbase : lookupA ((Database.mk [] [] : Database).fingerprints,
      expandPaths (Database.mk [] [] : Database).nodes).2 q = none := rfl
  constructor
  · intro hing
    rw [genFold_lookup_owner skip corpus _ _ q hnk, hbase]
    exact foldl_owner_none_pos skip q corpus hing
  · intro hning
    rw [genFold_lookup_owner skip corpus _ _ q hnk, hbase]
    exact foldl_owner_none_neg skip q corpus hning

/-- C9: for a database generated from a corpus, the group keys partition
the ingested (stripped) path universe — a path was ingested iff it
belongs to exactly one group — and each group is non-empty with its key
equal, for every one of its paths, to exactly the set of corpus versions
containing a file at that path. -/
theorem generate_partition : ∀ (corpus : List (String × List (String × String))) (skip : Nat),
    (∀ p, ingested corpus skip p ↔
      ∃ vs, MemVal (Database.generate ⟨[], []⟩ corpus skip).nodes vs p ∧
        ∀ vs2, MemVal (Database.generate ⟨[], []⟩ corpus skip).nodes vs2 p → vs2 = vs) ∧
    (∀ vs l, (vs, l) ∈ (Database.generate ⟨[], []⟩ corpus skip).nodes →
      l ≠ [] ∧ ∀ p ∈ l, owners corpus skip p = vs) := by
  intro corpus skip
  set m := (genFold (Database.mk [] [] : Database).versions skip corpus
    ((Database.mk [] [] : Database).fingerprints,
      expandPaths (Database.mk [] [] : Database).nodes)).2 with hm
  have hnodes : (Database.generate ⟨[], []⟩ corpus skip).nodes = regroup m := by
    rw [hm]
    rfl
  have hnodup : (keysOf m).Nodup := by
    rw [hm]
    exact genFold_keys_nodup _ skip corpus _ (by simp [keysOf, expandPaths, expandAux])
  have hchar : ∀ q, (ingested corpus skip q → lookupA m q = some (owners corpus skip q)) ∧
      (¬ ingested corpus skip q → lookupA m q = none) := by
    intro q
    rw [hm]
    exact generate_paths_char corpus skip q
  have hmemval : ∀ vs p, MemVal (regroup m) vs p ↔ (p, vs) ∈ m := by
    intro vs p
    simp only [regroup]
    rw [regroupAux_memval m [] vs p]
    constructor
    · rintro (⟨l, hl, _⟩ | h)
      · simp [lookupA] at hl
      · exact h
    · exact fun h => Or.inr h
  constructor
  · intro p
    constructor
    · intro hing
      have hl : lookupA m p = some (owners corpus skip p) := (hchar p).1 hing
      refine ⟨owners corpus skip p, ?_, ?_⟩
      · rw [hnodes]
        exact (hmemval _ p).mpr (lookupA_eq_some_mem hl)
      · intro vs2 hmv2
        rw [hnodes] at hmv2
        have h2 := (hmemval vs2 p).mp hmv2
        have h3 := lookupA_of_mem_nodup hnodup h2
        rw [hl] at h3
        exact (Option.some.inj h3).symm
    · rintro ⟨vs, hmv, _⟩
      rw [hnodes] at hmv
      have h2 := (hmemval vs p).mp hmv
      by_contra hning
      have h3 := (hchar p).2 hning
      have h4 := isSome_of_mem h2
      rw [h3] at h4
      simp at h4
  · intro vs l hvl
    rw [hnodes] at hvl
    constructor
    · exact regroupAux_vals_ne_nil m [] (by simp) (vs, l) hvl
    · intro p hp
      have hnodupR : (keysOf (regroup m)).Nodup := regroupAux_keys_nodup m [] (by simp [keysOf])
      have hlook : lookupA (regroup m) vs = some l := lookupA_of_mem_nodup hnodupR hvl
      have hmv : MemVal (regroup m) vs p := ⟨l, hlook, hp⟩
      have h2 := (hmemval vs p).mp hmv
      have h3 := lookupA_of_mem_nodup hnodup h2
      by_cases hing : ingested corpus skip p
      · have h4 := (hchar p).1 hing
        rw [h3] at h4
        exact (Option.some.inj h4).symm
      · have h4 := (hchar p).2 hing
        rw [h3] at h4
        simp at h4

/-- C9 witness: the partition statement evaluated on the example corpus —
the single group `{"1.0","2.0"} ↦ [a.txt, b.txt]` is non-empty and each
of its paths is owned by exactly the versions `{"1.0","2.0"}`. -/
theorem generate_partition_witness :
    (["a.txt", "b.txt"] : List String) ≠ [] ∧
      ∀ p ∈ (["a.txt", "b.txt"] : List String), owners corpus1 0 p = {"1.0", "2.0"} :=
  (generate_partition corpus1 0).2 {"1.0", "2.0"} ["a.txt", "b.txt"] (by decide)
